import Mathlib

/-!
# Verification of the robinsons-matrixify tag-normalization core

Shallow embedding of the tag-normalization and row-classification logic of
the `scripts/` directory (handle normalization, tag-list codec, gender merge,
row-group leader tracking, size-based classification), together with proofs
about the row-processing passes of `2-0-matrixify-segmenter.py`,
`4-0-corgi-size_6_7.py`, `4-2-happy-socks-gender-splitter.py` and
`5-0-unisex-adder.py`.
-/

namespace Matrixify

/-- A scalar Python value as it occurs in a spreadsheet cell or inside a
decoded JSON array: `None`, a `bool`, an `int`, or a `str`.  Cell values
delivered by the I/O layer (openpyxl) are always scalars; the JSON model
below parses flat arrays of such scalars. -/
inductive PyVal where
  | none
  | bool (b : Bool)
  | int (n : Int)
  | str (s : String)
deriving DecidableEq, Repr

/-- Canonical key underlying Python `==` on the scalar values above:
Python's `bool` is a subclass of `int`, so `True == 1` and `False == 0`;
all other kinds compare equal only to values of the same kind. -/
def pyKey : PyVal → PyVal
  | .bool b => .int (if b then 1 else 0)
  | v => v

/-- Model of Python `==` on scalar values (used by `in` on lists and sets). -/
def pyEq (a b : PyVal) : Bool :=
  pyKey a == pyKey b

/-- Model of Python `x in xs` for a list or set of scalar values. -/
def pyContains (xs : List PyVal) (x : PyVal) : Bool :=
  xs.any (fun y => pyEq y x)

/-- Model of Python `str()` on the scalar values above. -/
def pyStr : PyVal → String
  | .str s => s
  | .int n => toString n
  | .bool b => if b then "True" else "False"
  | .none => "None"

/-- Model of Python `str.lower` character-wise: ASCII uppercase letters are
lowered (plus the accented `É` exercised by the normalizer examples); other
characters are left unchanged.  This covers the character repertoire the
scripts compare and normalize. -/
def pyLowerChar (c : Char) : Char :=
  if 'A' ≤ c ∧ c ≤ 'Z' then Char.ofNat (c.toNat + 32)
  else if c = 'É' then 'é'
  else c

/-- Model of Python `str.lower`. -/
def pyLower (s : String) : String :=
  String.mk (s.toList.map pyLowerChar)

/-- ASCII whitespace stripped by Python `str.strip()` with no argument. -/
def pyIsSpace (c : Char) : Bool :=
  c = ' ' || c = '\t' || c = '\n' || c = '\x0d' || c = '\x0b' || c = '\x0c'

/-- Strip characters satisfying `p` from both ends of a character list. -/
def stripEndsL (p : Char → Bool) (l : List Char) : List Char :=
  ((l.dropWhile p).reverse.dropWhile p).reverse

/-- Model of Python `str.strip()` (strip whitespace from both ends). -/
def pyStrip (s : String) : String :=
  String.mk (stripEndsL pyIsSpace s.toList)

/-- Model of Python `str.strip(chars)` for a single stripped character. -/
def pyStripChar (ch : Char) (s : String) : String :=
  String.mk (stripEndsL (fun c => c = ch) s.toList)

/-! ## JSON model

The scripts call Python's `json.loads` / `json.dumps` on gender-tag cells.
The cells hold flat JSON arrays of scalars (or scalar values); the model
below parses exactly that subset: `null`, booleans, integers, strings with
the common escapes, and flat arrays of those.  Anything else (objects,
floats, nested arrays, unknown escapes) is a parse failure, which in the
scripts triggers the raw-text fallback. -/
/-- Result of a successful `json.loads`: a scalar or a flat array. -/
inductive Json where
  | scalar (v : PyVal)
  | arr (xs : List PyVal)
deriving DecidableEq, Repr

/-- JSON insignificant whitespace. -/
def jsonSkipWs (cs : List Char) : List Char :=
  cs.dropWhile (fun c => c = ' ' || c = '\t' || c = '\n' || c = '\x0d')

/-- Parse the body of a JSON string literal (after the opening quote). -/
def jsonParseStringBody : List Char → List Char → Option (String × List Char)
  | acc, '"' :: rest => some (String.mk acc.reverse, rest)
  | acc, '\\' :: e :: rest =>
    match e with
    | '"' => jsonParseStringBody ('"' :: acc) rest
    | '\\' => jsonParseStringBody ('\\' :: acc) rest
    | '/' => jsonParseStringBody ('/' :: acc) rest
    | 'n' => jsonParseStringBody ('\n' :: acc) rest
    | 't' => jsonParseStringBody ('\t' :: acc) rest
    | 'r' => jsonParseStringBody ('\x0d' :: acc) rest
    | _ => Option.none
  | acc, c :: rest =>
    if c = '\\' then Option.none else jsonParseStringBody (c :: acc) rest
  | _, [] => Option.none

/-- Digit run to a natural number. -/
def jsonDigitsToNat (ds : List Char) : Nat :=
  ds.foldl (fun n c => n * 10 + (c.toNat - '0'.toNat)) 0

/-- Parse one JSON scalar from the front of the input. -/
def jsonParseScalar (cs : List Char) : Option (PyVal × List Char) :=
  match cs with
  | 'n' :: 'u' :: 'l' :: 'l' :: rest => some (.none, rest)
  | 't' :: 'r' :: 'u' :: 'e' :: rest => some (.bool true, rest)
  | 'f' :: 'a' :: 'l' :: 's' :: 'e' :: rest => some (.bool false, rest)
  | '"' :: rest =>
    match jsonParseStringBody [] rest with
    | some (s, rest') => some (.str s, rest')
    | Option.none => Option.none
  | '-' :: rest =>
    let ds := rest.takeWhile Char.isDigit
    if ds.isEmpty then Option.none
    else some (.int (-(jsonDigitsToNat ds : Int)), rest.dropWhile Char.isDigit)
  | c :: _ =>
    if c.isDigit then
      let ds := cs.takeWhile Char.isDigit
      some (.int (jsonDigitsToNat ds : Int), cs.dropWhile Char.isDigit)
    else Option.none
  | [] => Option.none

/-- Parse the items of a flat JSON array after its first element's start;
`fuel` bounds the number of elements (the input length suffices). -/
def jsonParseItems (fuel : Nat) (cs : List Char) (acc : List PyVal) :
    Option (List PyVal × List Char) :=
  match fuel with
  | 0 => Option.none
  | fuel + 1 =>
    match jsonParseScalar cs with
    | Option.none => Option.none
    | some (v, rest) =>
      match jsonSkipWs rest with
      | ']' :: rest' => some (acc ++ [v], rest')
      | ',' :: rest' => jsonParseItems fuel (jsonSkipWs rest') (acc ++ [v])
      | _ => Option.none

/-- Model of Python `json.loads` on the flat-array subset described above. -/
def json_loads (s : String) : Option Json :=
  let cs := jsonSkipWs s.toList
  match cs with
  | '[' :: rest =>
    match jsonSkipWs rest with
    | ']' :: rest' =>
      if (jsonSkipWs rest').isEmpty then some (.arr []) else Option.none
    | body =>
      match jsonParseItems (body.length + 1) body [] with
      | some (xs, rest') =>
        if (jsonSkipWs rest').isEmpty then some (.arr xs) else Option.none
      | Option.none => Option.none
  | _ =>
    match jsonParseScalar cs with
    | some (v, rest) =>
      if (jsonSkipWs rest).isEmpty then some (.scalar v) else Option.none
    | Option.none => Option.none

/-- Escapes applied by `json.dumps` inside string literals (the subset
relevant to tag values: backslash, quote, and the common controls). -/
def jsonEscapeChar (c : Char) : String :=
  if c = '"' then "\\\""
  else if c = '\\' then "\\\\"
  else if c = '\n' then "\\n"
  else if c = '\t' then "\\t"
  else if c = '\x0d' then "\\r"
  else String.mk [c]

/-- `json.dumps` of one scalar value. -/
def jsonDumpVal : PyVal → String
  | .none => "null"
  | .bool true => "true"
  | .bool false => "false"
  | .int n => toString n
  | .str s => "\"" ++ String.join (s.toList.map jsonEscapeChar) ++ "\""

/-! ## Tag List Codec
(`parse_comma_separated_tags`, `parse_json_list`, `format_json_list` of
`4-0-corgi-size_6_7.py`, `4-2-happy-socks-gender-splitter.py` and
`5-0-unisex-adder.py`; the two scripts share identical definitions.) -/
/-- Model of Python `str.split(',')`: split at every comma, keeping empty
pieces. -/
def pySplitCommaGo : List Char → List Char → List String
  | acc, [] => [String.mk acc.reverse]
  | acc, ',' :: rest => String.mk acc.reverse :: pySplitCommaGo [] rest
  | acc, c :: rest => pySplitCommaGo (c :: acc) rest

/-- Model of Python `str.split(',')`. -/
def pySplitComma (s : String) : List String :=
  pySplitCommaGo [] s.toList

/-- `parse_comma_separated_tags` (4-0 lines 26-36, 4-2 lines 24-34): split a
cell on commas, strip whitespace from each piece, drop empty pieces. -/
def parse_comma_separated_tags (cell : PyVal) : List String :=
  if cell = .none || pyEq cell (.str "") then []
  else ((pySplitComma (pyStr cell)).map pyStrip).filter (fun t => t ≠ "")

/-- `parse_json_list` (4-0 lines 39-60, 5-0 lines 29-50): null/empty cell is
the empty list; a string cell is JSON-parsed, a parsed array returned as-is,
a parsed scalar wrapped; a parse failure or a non-string cell (Python's
`json.loads` raises `TypeError` there) degrades to `[str(cell)]`.  The
source's `isinstance(cell_value, list)` branch has no counterpart because
openpyxl cell values are always scalars. -/
def parse_json_list (cell : PyVal) : List PyVal :=
  if cell = .none || pyEq cell (.str "") then []
  else
    match cell with
    | .str s =>
      match json_loads s with
      | some (.arr xs) => xs
      | some (.scalar v) => [v]
      | Option.none => [.str s]
    | v => [.str (pyStr v)]

/-- `format_json_list` (4-0 lines 63-67, 4-2 lines 37-41, 5-0 lines 53-57):
`json.dumps` of the list, with the default `", "` item separator. -/
def format_json_list (values : List PyVal) : String :=
  "[" ++ String.intercalate ", " (values.map jsonDumpVal) ++ "]"

/-! ## Gender Merge Engine (`4-0-corgi-size_6_7.py`) -/
/-- `get_opposite_gender` (4-0 lines 70-79). -/
def get_opposite_gender (gender : String) : Option String :=
  let gender_lower := pyLower gender
  if gender_lower = "male" then some "Female"
  else if gender_lower = "female" then some "Male"
  else Option.none

/-- `update_gender_list` (4-0 lines 82-115). -/
def update_gender_list (current_genders : List PyVal) (new_gender : String) :
    List PyVal × Bool :=
  if pyContains current_genders (.str new_gender) then (current_genders, false)
  else
    let addNew : List PyVal × Bool :=
      if pyContains current_genders (.str "Unisex") then
        (current_genders ++ [.str new_gender], true)
      else if current_genders = [] then ([.str new_gender], true)
      else (current_genders ++ [.str new_gender], true)
    match get_opposite_gender new_gender with
    | some opposite =>
      if pyContains current_genders (.str opposite) then
        (current_genders.map (fun g => if pyEq g (.str opposite) then .str new_gender else g),
         true)
      else addNew
    | Option.none => addNew

/-! ## Unisex completion (`5-0-unisex-adder.py`) -/
/-- A Python exception raised by the core (only `AttributeError`, from
calling `.lower()` on a non-string value). -/
inductive PyErr where
  | attributeError
deriving DecidableEq, Repr

/-- Python's `any(g.lower() == target for g in genders)`: lazily scans the
list, stopping at the first hit, and raises `AttributeError` the moment
`.lower()` is invoked on a non-string element. -/
def anyLowerEq (target : String) : List PyVal → Except PyErr Bool
  | [] => .ok false
  | .str s :: rest => if pyLower s = target then .ok true else anyLowerEq target rest
  | _ :: _ => .error .attributeError

/-- `should_add_unisex` (5-0 lines 60-83): true when the list has both Male
and Female (case-insensitive) but not Unisex; lists shorter than two are
rejected up front, before any `.lower()` call. -/
def should_add_unisex (genders : List PyVal) : Except PyErr Bool :=
  if genders.length < 2 then .ok false
  else do
    let has_male ← anyLowerEq "male" genders
    let has_female ← anyLowerEq "female" genders
    let has_unisex ← anyLowerEq "unisex" genders
    return has_male && has_female && !has_unisex

/-- The per-leader update of `add_unisex_tags` (5-0 lines 174-182): append
`"Unisex"` exactly when `should_add_unisex` holds. -/
def addUnisexIfComplete (current_genders : List PyVal) : Except PyErr (List PyVal) := do
  if (← should_add_unisex current_genders) then
    return current_genders ++ [.str "Unisex"]
  else
    return current_genders

/-! ## Row Classifier (`4-2-happy-socks-gender-splitter.py`) -/
/-- `categorize_product` (4-2 lines 44-66). -/
def categorize_product (size_tags : List String) : Option String × List String :=
  let has_36_40 := size_tags.contains "size_36_40"
  let has_41_46 := size_tags.contains "size_41_46"
  if has_36_40 && has_41_46 then (some "unisex", ["Female", "Male", "Unisex"])
  else if has_36_40 then (some "female_only", ["Female"])
  else if has_41_46 then (some "male_only", ["Male"])
  else (Option.none, [])

/-! ## Handle Normalizer (`2-0-matrixify-segmenter.py`) -/
/-- Model of `unicodedata.normalize('NFKD', ...)` character-wise, for the
characters the normalizer exercises: ASCII characters are NFKD-invariant,
and the accented letters of the examples decompose into base letter plus
combining mark (U+0301).  Characters outside this repertoire are left
unchanged (they are dropped by the subsequent ASCII filter anyway). -/
def nfkdChar (c : Char) : List Char :=
  if c = 'é' then ['e', '́']
  else if c = 'É' then ['E', '́']
  else [c]

/-- Python `char.isascii() and char.isalnum()` for ASCII input. -/
def pyIsAsciiAlnum (c : Char) : Bool :=
  ('a' ≤ c && c ≤ 'z') || ('A' ≤ c && c ≤ 'Z') || ('0' ≤ c && c ≤ '9')

/-- The four symbols `normalize_handle` strips before decomposition:
trade mark, registered, copyright, service mark (2-0 lines 43-48). -/
def isProblematicSymbol (c : Char) : Bool :=
  c = '™' || c = '®' || c = '©' || c = '℠'

/-- Does the string contain two consecutive hyphens (`'--' in s`)? -/
def hasDoubleDash : List Char → Bool
  | [] => false
  | [_] => false
  | a :: b :: rest => (a = '-' && b = '-') || hasDoubleDash (b :: rest)

/-- One round of Python `s.replace('--', '-')`: non-overlapping left-to-right
replacement of each `--` by `-`. -/
def replaceDashPairs : List Char → List Char
  | [] => []
  | [c] => [c]
  | a :: b :: rest =>
    if a = '-' && b = '-' then '-' :: replaceDashPairs rest
    else a :: replaceDashPairs (b :: rest)

/-- The `while '--' in normalized:` loop of `normalize_handle` (2-0 lines
71-72).  Each round strictly shortens the string, so a fuel equal to the
initial length suffices (proved below). -/
def collapseDashesGo : Nat → List Char → List Char
  | 0, cs => cs
  | fuel + 1, cs =>
    if hasDoubleDash cs then collapseDashesGo fuel (replaceDashPairs cs) else cs

/-- Steps 1-4 of `normalize_handle` (2-0 lines 37-68): lowercase, strip the
problematic symbols, NFKD-decompose, keep only ASCII alphanumerics and
hyphens. -/
def normalizeFiltered (h : String) : List Char :=
  (((((pyLower h).toList.filter
    (fun c => !isProblematicSymbol c)).map nfkdChar).flatten).filter
      (fun c => pyIsAsciiAlnum c || c = '-'))

/-- `normalize_handle` (2-0 lines 12-74): lowercase, strip the problematic
symbols, NFKD-decompose, keep only ASCII alphanumerics and hyphens, collapse
hyphen runs, strip leading/trailing hyphens then whitespace.  A null or
empty argument (Python `if not handle`) yields the empty string. -/
def normalize_handle (handle : Option String) : String :=
  match handle with
  | Option.none => ""
  | some h =>
    if h = "" then ""
    else
      let cs := normalizeFiltered h
      pyStrip (pyStripChar '-' (String.mk (collapseDashesGo cs.length cs)))

/-! ## Row Group Leader Tracker

The `seen_handles` pattern shared by `update_gender_tags` (4-0 lines
216-231), `split_happy_socks` (4-2 lines 192-197) and `add_unisex_tags`
(5-0 lines 169-185): membership test against the set of keys already seen,
recording the key on first sight. -/
/-- Feed a key sequence to one fresh tracker and collect the per-key
first-sight results. -/
def leaderResults (keys : List PyVal) : List Bool :=
  (keys.foldl
    (fun (st : List PyVal × List Bool) k =>
      let is_first := !(pyContains st.1 k)
      if is_first then (st.1 ++ [k], st.2 ++ [true]) else (st.1, st.2 ++ [false]))
    ([], [])).2

/-! ## Row-processing passes

Each pass is the row loop of its script, restricted to the columns the loop
reads or writes (handle, brand, size-tags, gender); all other columns are
copied verbatim by the scripts and are omitted from the row model. -/
/-- A row as read by `4-0-corgi-size_6_7.py` and
`4-2-happy-socks-gender-splitter.py`: handle (col B), brand (col F),
size tags (col H), gender (col CQ). -/
structure GRow where
  handle : PyVal
  brand : PyVal
  size : PyVal
  gender : PyVal
deriving DecidableEq, Repr

/-- A row as read by `5-0-unisex-adder.py`: handle (col B), gender (col CQ). -/
structure URow where
  handle : PyVal
  gender : PyVal
deriving DecidableEq, Repr

/-- A master-catalog row as read by `2-0-matrixify-segmenter.py`: handle
(col B) plus the remaining cells, copied verbatim. -/
structure MRow where
  handle : PyVal
  rest : List PyVal
deriving DecidableEq, Repr

/-- One iteration of the row loop of `update_gender_tags` (4-0 lines
193-250).  State: (`seen_handles`, output rows so far). -/
def update_gender_tags_step (brand_name size_label gender : String)
    (st : List PyVal × List GRow) (row : GRow) : List PyVal × List GRow :=
  let size_tags := parse_comma_separated_tags row.size
  if pyEq row.brand (.str brand_name) && size_tags.contains size_label then
    let is_first_occurrence := !(pyContains st.1 row.handle)
    if is_first_occurrence then
      let current_genders := parse_json_list row.gender
      let updated_genders := (update_gender_list current_genders gender).1
      (st.1 ++ [row.handle],
       st.2 ++ [{ row with gender := .str (format_json_list updated_genders) }])
    else
      (st.1, st.2 ++ [{ row with gender := .none }])
  else st

/-- The full single pass of `update_gender_tags`: only matching rows are
output; the gender column of a first-occurrence row is overwritten with the
merged list, later occurrences of the same handle get an explicit blank. -/
def update_gender_tags_pass (brand_name size_label gender : String)
    (rows : List GRow) : List GRow :=
  (rows.foldl (update_gender_tags_step brand_name size_label gender) ([], [])).2

/-- The three per-category (tracker, output) pairs of `split_happy_socks`
(4-2 lines 142-153). -/
structure SplitState where
  female_only : List PyVal × List GRow
  male_only : List PyVal × List GRow
  unisex : List PyVal × List GRow
deriving Repr

/-- One iteration of the row loop of `split_happy_socks` (4-2 lines
162-218): non-Happy-Socks rows and rows with neither size marker are
skipped; otherwise the row goes to its category's output with the gender
column overwritten on the category's first sight of the handle and blanked
afterwards. -/
def split_happy_socks_step (st : SplitState) (row : GRow) : SplitState :=
  if !(pyEq row.brand (.str "Happy Socks")) then st
  else
    match categorize_product (parse_comma_separated_tags row.size) with
    | (Option.none, _) => st
    | (some category, gender_list) =>
      let upd : List PyVal × List GRow → List PyVal × List GRow := fun p =>
        let is_first_occurrence := !(pyContains p.1 row.handle)
        if is_first_occurrence then
          (p.1 ++ [row.handle],
           p.2 ++ [{ row with
                     gender := .str (format_json_list (gender_list.map PyVal.str)) }])
        else (p.1, p.2 ++ [{ row with gender := .none }])
      if category = "female_only" then { st with female_only := upd st.female_only }
      else if category = "male_only" then { st with male_only := upd st.male_only }
      else if category = "unisex" then { st with unisex := upd st.unisex }
      else st

/-- The full single pass of `split_happy_socks`. -/
def split_happy_socks_pass (rows : List GRow) : SplitState :=
  rows.foldl split_happy_socks_step ⟨([], []), ([], []), ([], [])⟩

/-- One iteration of the row loop of `add_unisex_tags` (5-0 lines 156-204).
Every row is output.  On the first sight of a handle the gender cell is
decoded, completed via `should_add_unisex`, and re-encoded — except that an
empty updated list is written as an explicit blank (`format_json_list(
updated_genders) if updated_genders else None`, line 198).  Later sights of
the handle get a blank.  An exception raised by `should_add_unisex` aborts
the whole pass, as in the script. -/
def add_unisex_tags_step (st : List PyVal × List URow) (row : URow) :
    Except PyErr (List PyVal × List URow) := do
  let is_first_occurrence := !(pyContains st.1 row.handle)
  if is_first_occurrence then
    let current_genders := parse_json_list row.gender
    let updated_genders ← addUnisexIfComplete current_genders
    return (st.1 ++ [row.handle],
            st.2 ++ [{ row with
                       gender := if updated_genders.isEmpty then PyVal.none
                                 else .str (format_json_list updated_genders) }])
  else
    return (st.1, st.2 ++ [{ row with gender := PyVal.none }])

/-- The full single pass of `add_unisex_tags`. -/
def add_unisex_tags_pass (rows : List URow) : Except PyErr (List URow) := do
  let st ← rows.foldlM add_unisex_tags_step ([], [])
  return st.2

/-! ## Cross-file matching (`2-0-matrixify-segmenter.py`) -/
/-- Python `dict` assignment `d[k] = v`: overwrite the value at an existing
key in place, otherwise append the binding.  (Keys are unique by
construction, so updating the first matching binding is the same as
updating the only one.) -/
def dictInsert : List (String × String) → String → String → List (String × String)
  | [], k, v => [(k, v)]
  | p :: rest, k, v =>
    if p.1 = k then (k, v) :: rest else p :: dictInsert rest k v

/-- Python `dict` lookup `d.get(k)`. -/
def dictGet (d : List (String × String)) (k : String) : Option String :=
  (d.find? (fun p => p.1 = k)).map (fun p => p.2)

/-- One iteration of the reference loop of `extract_handles_from_reference`
(2-0 lines 101-111): skip null and (after stripping) empty handles,
otherwise record the normalized key and map it to the original text.
State: (`normalized_handles` as an insertion-ordered set, `handle_mapping`). -/
def extract_handles_step (st : List String × List (String × String))
    (cell : PyVal) : List String × List (String × String) :=
  match cell with
  | PyVal.none => st
  | v =>
    let handle_str := pyStrip (pyStr v)
    if handle_str = "" then st
    else
      let normalized := normalize_handle (some handle_str)
      ((if st.1.contains normalized then st.1 else st.1 ++ [normalized]),
       dictInsert st.2 normalized handle_str)

/-- `extract_handles_from_reference` (2-0 lines 76-117) over the column-B
cells of the reference file. -/
def extract_handles_from_reference (cells : List PyVal) :
    List String × List (String × String) :=
  cells.foldl extract_handles_step ([], [])

/-- One iteration of the master loop of `extract_matching_rows` (2-0 lines
153-174): skip null handles, keep rows whose normalized handle is among the
reference keys, and replace the handle cell with the mapping's original
reference text (defaulting to the master's own stripped handle). -/
def extract_matching_step (handles : List String)
    (handle_mapping : List (String × String)) (out : List MRow) (row : MRow) :
    List MRow :=
  match row.handle with
  | PyVal.none => out
  | v =>
    let handle_str := pyStrip (pyStr v)
    let normalized_handle := normalize_handle (some handle_str)
    if handles.contains normalized_handle then
      let original_handle := (dictGet handle_mapping normalized_handle).getD handle_str
      out ++ [{ handle := .str original_handle, rest := row.rest }]
    else out

/-- `extract_matching_rows` (2-0 lines 120-182). -/
def extract_matching_rows (masterRows : List MRow) (handles : List String)
    (handle_mapping : List (String × String)) : List MRow :=
  masterRows.foldl (extract_matching_step handles handle_mapping) []

/-- A single loop iteration, as seen through one (tracker, output) pair:
either it leaves the pair alone, or it appends a row with an unseen handle
and records that handle, or it appends a blank-gender row whose handle was
already seen. -/
def LeaderStep {α : Type} (hOf gOf : α → PyVal)
    (st st' : List PyVal × List α) : Prop :=
  st' = st ∨
  (∃ r, pyContains st.1 (hOf r) = false ∧ st' = (st.1 ++ [hOf r], st.2 ++ [r])) ∨
  (∃ r, pyContains st.1 (hOf r) = true ∧ gOf r = PyVal.none ∧
        st' = (st.1, st.2 ++ [r]))

/-- The Matrixify output discipline for one output grid: of any two rows
with `==`-equal handles, the later one carries a blank gender cell — hence
per handle at most one row is non-blank, and a non-blank row is always the
first row of its handle group. -/
def BlankAfterLeader {α : Type} (hOf gOf : α → PyVal) (out : List α) : Prop :=
  ∀ i j, (hi : i < out.length) → (hj : j < out.length) → i < j →
    pyEq (hOf out[i]) (hOf out[j]) = true → gOf out[j] = PyVal.none

/-- The leadership invariant: every output handle is tracked, and the output
obeys the blank-after-leader discipline. -/
def LeaderInv {α : Type} (hOf gOf : α → PyVal)
    (st : List PyVal × List α) : Prop :=
  (∀ r ∈ st.2, pyContains st.1 (hOf r) = true) ∧
  BlankAfterLeader hOf gOf st.2

/-- Shape of a gender cell written by the 5-0 pass: blank, or the JSON
encoding of a non-empty list (an empty computed list is written blank at 5-0
line 198). -/
def UGenderShape (r : URow) : Prop :=
  r.gender = PyVal.none ∨
  ∃ xs, xs ≠ [] ∧ r.gender = PyVal.str (format_json_list xs)

/-- ASCII uppercase letter. -/
def isAsciiUpper (c : Char) : Bool :=
  'A' ≤ c && c ≤ 'Z'

/-- A character that can appear in a normalized handle: ASCII lowercase
letter, digit, or hyphen. -/
def isNormalChar (c : Char) : Bool :=
  (pyIsAsciiAlnum c || c = '-') && !isAsciiUpper c

/-! ## Unisex completion: claim C7 -/
/-- Case-insensitive membership, as the unisex-completion rule words it. -/
def containsGenderCI (gs : List String) (target : String) : Bool :=
  gs.any (fun g => pyLower g = target)

/-! ## Gender merge refinement: claim C2 -/
/-- String-list membership under exact string equality. -/
def hasEntry (l : List String) (x : String) : Bool :=
  l.any (fun g => g = x)

/-- The opposite map as claim C2 words it: the exact strings Male and Female
are swapped; anything else, including Unisex, has no opposite. -/
def oppositeOfSpec : String → Option String
  | "Male" => some "Female"
  | "Female" => some "Male"
  | _ => Option.none

/-- Replace the (single) first occurrence in place, preserving its position
— claim C2's "replace that opposite entry in place". -/
def replaceFirst : List String → String → String → List String
  | [], _, _ => []
  | x :: xs, old, new =>
    if x = old then new :: xs else x :: replaceFirst xs old new

/-- The merge exactly as claim C2 words it. -/
def mergeSpecLiteral (current : List String) (incoming : String) :
    List String × Bool :=
  if hasEntry current incoming then (current, false)
  else
    match oppositeOfSpec incoming with
    | some opp =>
      if hasEntry current opp then (replaceFirst current opp incoming, true)
      else if hasEntry current "Unisex" then (current ++ [incoming], true)
      else (current ++ [incoming], true)
    | Option.none =>
      if hasEntry current "Unisex" then (current ++ [incoming], true)
      else (current ++ [incoming], true)

/-- The opposite map as the amended claim words it: incoming is lowercased
first, so any casing of "male" has opposite "Female" and any casing of
"female" has opposite "Male"; anything else has no opposite. -/
def oppositeOfAmended (incoming : String) : Option String :=
  if pyLower incoming = "male" then some "Female"
  else if pyLower incoming = "female" then some "Male"
  else Option.none

/-- The merge as the amended claim words it: rule 2 replaces every
occurrence of the opposite, preserving positions. -/
def mergeSpecAmended (current : List String) (incoming : String) :
    List String × Bool :=
  if hasEntry current incoming then (current, false)
  else
    match oppositeOfAmended incoming with
    | some opp =>
      if hasEntry current opp then
        (current.map (fun g => if g = opp then incoming else g), true)
      else if hasEntry current "Unisex" then (current ++ [incoming], true)
      else (current ++ [incoming], true)
    | Option.none =>
      if hasEntry current "Unisex" then (current ++ [incoming], true)
      else (current ++ [incoming], true)

/-! ## Cross-file matching: claim C4 -/
/-- A reference cell as the extraction loop cleans it: null cells and cells
whose stripped text is empty are skipped. -/
def cleanedRefCell : PyVal → Option String
  | PyVal.none => Option.none
  | v =>
    let s := pyStrip (pyStr v)
    if s = "" then Option.none else some s

/-- The original text of the last reference occurrence (in file order) whose
normalization is `key`. -/
def lastOriginalFor (cells : List PyVal) (key : String) : Option String :=
  ((cells.filterMap cleanedRefCell).reverse).find?
    (fun s => normalize_handle (some s) = key)

/-! ## Theorems -/

theorem pyEq_refl (a : PyVal) : pyEq a a = true := by
  simp [pyEq]

theorem pyEq_trans {a b c : PyVal} (h₁ : pyEq a b = true) (h₂ : pyEq b c = true) :
    pyEq a c = true := by
  simp only [pyEq, beq_iff_eq] at *
  exact h₁.trans h₂

theorem pyEq_str_iff (s t : String) : pyEq (.str s) (.str t) = true ↔ s = t := by
  simp [pyEq, pyKey]

theorem mk_toList (s : String) : String.mk s.toList = s := by
  cases s
  rfl

/-! ## Leader-tracking invariant

The three row loops share the `seen_handles` discipline: a row whose handle
was already seen is appended with an explicit blank gender cell, a row whose
handle is new is appended (with any gender cell) while its handle is
recorded.  The invariant below captures the Matrixify guarantee: within one
output, any later row of an already-seen handle carries a blank. -/
theorem pyContains_mono {xs : List PyVal} {x : PyVal} (ys : List PyVal)
    (h : pyContains xs x = true) : pyContains (xs ++ ys) x = true := by
  simp only [pyContains, List.any_append, Bool.or_eq_true]
  exact Or.inl h

theorem pyContains_append_self (xs : List PyVal) (x : PyVal) :
    pyContains (xs ++ [x]) x = true := by
  simp [pyContains, List.any_append, pyEq_refl]

theorem pyContains_of_pyEq {xs : List PyVal} {a b : PyVal}
    (h : pyContains xs a = true) (hab : pyEq a b = true) :
    pyContains xs b = true := by
  simp only [pyContains, List.any_eq_true] at h ⊢
  obtain ⟨y, hy, hya⟩ := h
  exact ⟨y, hy, pyEq_trans hya hab⟩

theorem leaderInv_nil {α : Type} (hOf gOf : α → PyVal) :
    LeaderInv hOf gOf ([], []) := by
  constructor
  · intro r hr; cases hr
  · intro i j hi; cases hi

theorem leaderStep_preserves {α : Type} (hOf gOf : α → PyVal)
    {st st' : List PyVal × List α}
    (hstep : LeaderStep hOf gOf st st') (hinv : LeaderInv hOf gOf st) :
    LeaderInv hOf gOf st' := by
  obtain ⟨h1, h2⟩ := hinv
  rcases hstep with rfl | ⟨r, hr, rfl⟩ | ⟨r, hr, hg, rfl⟩
  · exact ⟨h1, h2⟩
  · constructor
    · intro r' hr'
      rcases List.mem_append.mp hr' with h | h
      · exact pyContains_mono _ (h1 r' h)
      · rcases List.mem_singleton.mp h with rfl
        exact pyContains_append_self _ _
    · intro i j hi hj hij heq
      have hj' : j < st.2.length + 1 := by simpa using hj
      by_cases hjlt : j < st.2.length
      · have hilt : i < st.2.length := lt_trans hij hjlt
        rw [List.getElem_append_left hilt, List.getElem_append_left hjlt] at heq
        rw [List.getElem_append_left hjlt]
        exact h2 i j hilt hjlt hij heq
      · have hjl : j = st.2.length := by omega
        subst hjl
        have hilt : i < st.2.length := hij
        have hgetj : (st.2 ++ [r])[st.2.length] = r := by
          simp
        rw [List.getElem_append_left hilt, hgetj] at heq
        have hmem : st.2[i] ∈ st.2 := List.getElem_mem hilt
        have hcontra := pyContains_of_pyEq (h1 _ hmem) heq
        rw [hcontra] at hr
        cases hr
  · constructor
    · intro r' hr'
      rcases List.mem_append.mp hr' with h | h
      · exact h1 r' h
      · rcases List.mem_singleton.mp h with rfl
        exact hr
    · intro i j hi hj hij heq
      have hj' : j < st.2.length + 1 := by simpa using hj
      by_cases hjlt : j < st.2.length
      · have hilt : i < st.2.length := lt_trans hij hjlt
        rw [List.getElem_append_left hilt, List.getElem_append_left hjlt] at heq
        rw [List.getElem_append_left hjlt]
        exact h2 i j hilt hjlt hij heq
      · have hjl : j = st.2.length := by omega
        subst hjl
        have hgetj : (st.2 ++ [r])[st.2.length] = r := by
          simp
        rw [hgetj]
        exact hg

/-- Invariant preservation along a `foldl`, through a projection of the loop
state onto one (tracker, output) pair. -/
theorem leaderInv_foldl {σ β α : Type} (proj : σ → List PyVal × List α)
    (f : σ → β → σ) (hOf gOf : α → PyVal)
    (hstep : ∀ st a, LeaderStep hOf gOf (proj st) (proj (f st a))) :
    ∀ (l : List β) (st : σ), LeaderInv hOf gOf (proj st) →
      LeaderInv hOf gOf (proj (l.foldl f st))
  | [], _, h => h
  | a :: l, st, h =>
    leaderInv_foldl proj f hOf gOf hstep l (f st a)
      (leaderStep_preserves hOf gOf (hstep st a) h)

/-- Invariant preservation along a `foldlM` in the `Except` monad. -/
theorem leaderInv_foldlM {β α : Type}
    (f : List PyVal × List α → β → Except PyErr (List PyVal × List α))
    (hOf gOf : α → PyVal)
    (hstep : ∀ st a st', f st a = .ok st' → LeaderStep hOf gOf st st') :
    ∀ (l : List β) (st st' : List PyVal × List α),
      l.foldlM f st = .ok st' → LeaderInv hOf gOf st → LeaderInv hOf gOf st' := by
  intro l
  induction l with
  | nil =>
    intro st st' hfold h
    simp only [List.foldlM_nil] at hfold
    cases hfold
    exact h
  | cons a l ih =>
    intro st st' hfold h
    simp only [List.foldlM_cons] at hfold
    cases hfa : f st a with
    | error e => rw [hfa] at hfold; cases hfold
    | ok s =>
      rw [hfa] at hfold
      exact ih s st' hfold
        (leaderStep_preserves hOf gOf (hstep st a s hfa) h)

theorem update_gender_tags_step_leaderStep (b s g : String)
    (st : List PyVal × List GRow) (row : GRow) :
    LeaderStep GRow.handle GRow.gender st (update_gender_tags_step b s g st row) := by
  unfold update_gender_tags_step
  by_cases hm : (pyEq row.brand (.str b) &&
      (parse_comma_separated_tags row.size).contains s) = true
  · rw [if_pos hm]
    cases hb : pyContains st.1 row.handle with
    | false =>
      simp only [hb, Bool.not_false, if_true]
      right; left
      exact ⟨{ row with gender := .str (format_json_list
        (update_gender_list (parse_json_list row.gender) g).1) }, hb, rfl⟩
    | true =>
      simp only [hb, Bool.not_true, if_false]
      right; right
      exact ⟨{ row with gender := PyVal.none }, hb, rfl, rfl⟩
  · rw [if_neg hm]
    left
    rfl

theorem update_gender_tags_fold_inv (b s g : String) (rows : List GRow) :
    LeaderInv GRow.handle GRow.gender
      (rows.foldl (update_gender_tags_step b s g) ([], [])) :=
  leaderInv_foldl (fun x => x) (update_gender_tags_step b s g) _ _
    (fun st a => update_gender_tags_step_leaderStep b s g st a) rows ([], [])
    (leaderInv_nil _ _)

theorem splitUpd_leaderStep (row : GRow) (gl : List String)
    (p : List PyVal × List GRow) :
    LeaderStep GRow.handle GRow.gender p
      (if !(pyContains p.1 row.handle) then
        (p.1 ++ [row.handle],
         p.2 ++ [{ row with gender := .str (format_json_list (gl.map PyVal.str)) }])
       else (p.1, p.2 ++ [{ row with gender := .none }])) := by
  cases hb : pyContains p.1 row.handle with
  | false =>
    simp only [hb, Bool.not_false, if_true]
    right; left
    exact ⟨{ row with gender := .str (format_json_list (gl.map PyVal.str)) },
      hb, rfl⟩
  | true =>
    simp only [hb, Bool.not_true, if_false]
    right; right
    exact ⟨{ row with gender := PyVal.none }, hb, rfl, rfl⟩

theorem split_happy_socks_step_leaderStep_female (st : SplitState) (row : GRow) :
    LeaderStep GRow.handle GRow.gender st.female_only
      ((split_happy_socks_step st row).female_only) := by
  unfold split_happy_socks_step
  by_cases hbr : (!(pyEq row.brand (.str "Happy Socks"))) = true
  · rw [if_pos hbr]; left; rfl
  · rw [if_neg hbr]
    rcases hcat : categorize_product (parse_comma_separated_tags row.size) with ⟨c, gl⟩
    cases c with
    | none => left; rfl
    | some category =>
      simp only []
      by_cases hf : category = "female_only"
      · subst hf
        simp only [if_pos rfl]
        exact splitUpd_leaderStep row gl st.female_only
      · rw [if_neg hf]
        by_cases hm : category = "male_only"
        · subst hm; simp only [if_pos rfl]; left; rfl
        · rw [if_neg hm]
          by_cases hu : category = "unisex"
          · subst hu; simp only [if_pos rfl]; left; rfl
          · rw [if_neg hu]; left; rfl

theorem split_happy_socks_step_leaderStep_male (st : SplitState) (row : GRow) :
    LeaderStep GRow.handle GRow.gender st.male_only
      ((split_happy_socks_step st row).male_only) := by
  unfold split_happy_socks_step
  by_cases hbr : (!(pyEq row.brand (.str "Happy Socks"))) = true
  · rw [if_pos hbr]; left; rfl
  · rw [if_neg hbr]
    rcases hcat : categorize_product (parse_comma_separated_tags row.size) with ⟨c, gl⟩
    cases c with
    | none => left; rfl
    | some category =>
      simp only []
      by_cases hf : category = "female_only"
      · subst hf; simp only [if_pos rfl]; left; rfl
      · rw [if_neg hf]
        by_cases hm : category = "male_only"
        · subst hm
          simp only [if_pos rfl]
          exact splitUpd_leaderStep row gl st.male_only
        · rw [if_neg hm]
          by_cases hu : category = "unisex"
          · subst hu; simp only [if_pos rfl]; left; rfl
          · rw [if_neg hu]; left; rfl

theorem split_happy_socks_step_leaderStep_unisex (st : SplitState) (row : GRow) :
    LeaderStep GRow.handle GRow.gender st.unisex
      ((split_happy_socks_step st row).unisex) := by
  unfold split_happy_socks_step
  by_cases hbr : (!(pyEq row.brand (.str "Happy Socks"))) = true
  · rw [if_pos hbr]; left; rfl
  · rw [if_neg hbr]
    rcases hcat : categorize_product (parse_comma_separated_tags row.size) with ⟨c, gl⟩
    cases c with
    | none => left; rfl
    | some category =>
      simp only []
      by_cases hf : category = "female_only"
      · subst hf; simp only [if_pos rfl]; left; rfl
      · rw [if_neg hf]
        by_cases hm : category = "male_only"
        · subst hm; simp only [if_pos rfl]; left; rfl
        · rw [if_neg hm]
          by_cases hu : category = "unisex"
          · subst hu
            simp only [if_pos rfl]
            exact splitUpd_leaderStep row gl st.unisex
          · rw [if_neg hu]; left; rfl

theorem split_happy_socks_pass_inv (rows : List GRow) :
    LeaderInv GRow.handle GRow.gender (split_happy_socks_pass rows).female_only ∧
    LeaderInv GRow.handle GRow.gender (split_happy_socks_pass rows).male_only ∧
    LeaderInv GRow.handle GRow.gender (split_happy_socks_pass rows).unisex :=
  ⟨leaderInv_foldl SplitState.female_only split_happy_socks_step _ _
     (fun st a => split_happy_socks_step_leaderStep_female st a) rows _
     (leaderInv_nil _ _),
   leaderInv_foldl SplitState.male_only split_happy_socks_step _ _
     (fun st a => split_happy_socks_step_leaderStep_male st a) rows _
     (leaderInv_nil _ _),
   leaderInv_foldl SplitState.unisex split_happy_socks_step _ _
     (fun st a => split_happy_socks_step_leaderStep_unisex st a) rows _
     (leaderInv_nil _ _)⟩

theorem add_unisex_tags_step_leaderStep (st : List PyVal × List URow)
    (row : URow) (st' : List PyVal × List URow)
    (h : add_unisex_tags_step st row = .ok st') :
    LeaderStep URow.handle URow.gender st st' := by
  unfold add_unisex_tags_step at h
  cases hb : pyContains st.1 row.handle with
  | false =>
    simp only [hb, Bool.not_false, if_true] at h
    cases hu : addUnisexIfComplete (parse_json_list row.gender) with
    | error e =>
      rw [hu] at h
      cases h
    | ok u =>
      rw [hu] at h
      cases h
      right; left
      exact ⟨{ row with gender := if u.isEmpty then PyVal.none
                 else .str (format_json_list u) }, hb, rfl⟩
  | true =>
    simp only [hb, Bool.not_true, if_false] at h
    cases h
    right; right
    exact ⟨{ row with gender := PyVal.none }, hb, rfl, rfl⟩

theorem add_unisex_tags_pass_fold (rows : List URow) (out : List URow)
    (h : add_unisex_tags_pass rows = .ok out) :
    ∃ seen, rows.foldlM add_unisex_tags_step ([], []) = .ok (seen, out) := by
  unfold add_unisex_tags_pass at h
  cases hf : rows.foldlM add_unisex_tags_step ([], []) with
  | error e => rw [hf] at h; cases h
  | ok st =>
    obtain ⟨seen, out2⟩ := st
    rw [hf] at h
    cases h
    exact ⟨seen, rfl⟩

theorem add_unisex_tags_pass_inv (rows : List URow) (out : List URow)
    (h : add_unisex_tags_pass rows = .ok out) :
    ∃ seen, LeaderInv URow.handle URow.gender (seen, out) := by
  obtain ⟨seen, hfold⟩ := add_unisex_tags_pass_fold rows out h
  exact ⟨seen,
    leaderInv_foldlM add_unisex_tags_step _ _
      (fun st a st' hok => add_unisex_tags_step_leaderStep st a st' hok)
      rows ([], []) (seen, out) hfold (leaderInv_nil _ _)⟩

theorem add_unisex_tags_step_shape (st : List PyVal × List URow) (row : URow)
    (st' : List PyVal × List URow) (h : add_unisex_tags_step st row = .ok st')
    (hpre : ∀ r ∈ st.2, UGenderShape r) : ∀ r ∈ st'.2, UGenderShape r := by
  unfold add_unisex_tags_step at h
  cases hb : pyContains st.1 row.handle with
  | false =>
    simp only [hb, Bool.not_false, if_true] at h
    cases hu : addUnisexIfComplete (parse_json_list row.gender) with
    | error e => rw [hu] at h; cases h
    | ok u =>
      rw [hu] at h
      cases h
      intro r hr
      rcases List.mem_append.mp hr with hmem | hmem
      · exact hpre r hmem
      · rcases List.mem_singleton.mp hmem with rfl
        cases hue : u.isEmpty with
        | true => left; simp [UGenderShape, hue]
        | false =>
          right
          refine ⟨u, ?_, by simp [hue]⟩
          intro hnil
          rw [hnil] at hue
          cases hue
  | true =>
    simp only [hb, Bool.not_true, if_false] at h
    cases h
    intro r hr
    rcases List.mem_append.mp hr with hmem | hmem
    · exact hpre r hmem
    · rcases List.mem_singleton.mp hmem with rfl
      left
      rfl

theorem add_unisex_tags_fold_shape :
    ∀ (rows : List URow) (st st' : List PyVal × List URow),
      rows.foldlM add_unisex_tags_step st = .ok st' →
      (∀ r ∈ st.2, UGenderShape r) → ∀ r ∈ st'.2, UGenderShape r := by
  intro rows
  induction rows with
  | nil =>
    intro st st' hfold h
    simp only [List.foldlM_nil] at hfold
    cases hfold
    exact h
  | cons a l ih =>
    intro st st' hfold h
    simp only [List.foldlM_cons] at hfold
    cases hfa : add_unisex_tags_step st a with
    | error e => rw [hfa] at hfold; cases hfold
    | ok s =>
      rw [hfa] at hfold
      exact ih s st' hfold (add_unisex_tags_step_shape st a s hfa h)

/-! ## Claims -/
/-- Claim C1 (confirmed): in every output grid produced by one pass — the
matched-rows output of `update_gender_tags` and each of the three category
outputs of `split_happy_socks` — any two rows with `==`-equal handles have a
blank gender on the later row; hence at most one row per handle carries a
non-blank computed gender, and such a row is the first output row of its
handle. -/
theorem claim_C1 :
    (∀ (brand_name size_label gender : String) (rows : List GRow),
      BlankAfterLeader GRow.handle GRow.gender
        (update_gender_tags_pass brand_name size_label gender rows)) ∧
    (∀ rows : List GRow,
      BlankAfterLeader GRow.handle GRow.gender
        (split_happy_socks_pass rows).female_only.2 ∧
      BlankAfterLeader GRow.handle GRow.gender
        (split_happy_socks_pass rows).male_only.2 ∧
      BlankAfterLeader GRow.handle GRow.gender
        (split_happy_socks_pass rows).unisex.2) := by
  constructor
  · intro b s g rows
    exact (update_gender_tags_fold_inv b s g rows).2
  · intro rows
    obtain ⟨hf, hm, hu⟩ := split_happy_socks_pass_inv rows
    exact ⟨hf.2, hm.2, hu.2⟩

/-- Claim C1 witness: a concrete two-variant product; the second row of the
handle is blank in the gender column. -/
theorem claim_C1_witness :
    ((update_gender_tags_pass "Corgi" "6/7" "Female"
        [⟨.str "sock-a", .str "Corgi", .str "6/7", PyVal.none⟩,
         ⟨.str "sock-a", .str "Corgi", .str "6/7", PyVal.none⟩]).get
      ⟨1, by decide⟩).gender = PyVal.none := by
  have h := claim_C1.1 "Corgi" "6/7" "Female"
    [⟨.str "sock-a", .str "Corgi", .str "6/7", PyVal.none⟩,
     ⟨.str "sock-a", .str "Corgi", .str "6/7", PyVal.none⟩]
  simpa [List.get_eq_getElem] using
    h 0 1 (by decide) (by decide) (by decide) (by decide)

/-- Claim C3 counterexample: the tracker answers `true` for H2's first
sight, so the result sequence for `[H1, H1, H2, H1]` is not
`[true, false, false, false]`. -/
theorem claim_C3_counterexample :
    leaderResults [PyVal.str "H1", PyVal.str "H1", PyVal.str "H2", PyVal.str "H1"] ≠
      [true, false, false, false] := by
  decide

/-- Claim C3 (amended): for the handle sequence `[H1, H1, H2, H1]` against
one fresh tracker, with H1 and H2 distinct, the results are
`[true, false, true, false]` — H2's first sight also leads; H1 leads only
once. -/
theorem claim_C3 (h1 h2 : PyVal) (hne : pyEq h1 h2 = false) :
    leaderResults [h1, h1, h2, h1] = [true, false, true, false] := by
  simp [leaderResults, pyContains, pyEq_refl, hne]

/-- Claim C3 witness at concrete handles. -/
theorem claim_C3_witness :
    leaderResults [PyVal.str "H1", PyVal.str "H1", PyVal.str "H2", PyVal.str "H1"] =
      [true, false, true, false] :=
  claim_C3 (PyVal.str "H1") (PyVal.str "H2") (by decide)

/-- Claim C8 counterexample: it is not the case that only non-leader rows
receive a blank gender cell — a leader row whose computed list is empty
(here: a null gender cell) is written blank, not as `"[]"`. -/
theorem claim_C8_counterexample :
    ¬ (∀ (rows out : List URow), add_unisex_tags_pass rows = Except.ok out →
        ∀ j, (hj : j < out.length) → (out.get ⟨j, hj⟩).gender = PyVal.none →
          ∃ i, ∃ hi : i < out.length, i < j ∧
            pyEq (out.get ⟨i, hi⟩).handle (out.get ⟨j, hj⟩).handle = true) := by
  intro hclaim
  obtain ⟨i, hi, hij, -⟩ :=
    hclaim [⟨PyVal.str "h", PyVal.none⟩] [⟨PyVal.str "h", PyVal.none⟩] rfl
      0 (by decide) (by decide)
  omega

/-- Claim C8 (amended): every non-blank gender cell written by the 5-0 pass
is the JSON-array encoding of a non-empty computed list; the encoder itself
renders the empty list as `"[]"`, but a leader row whose computed list is
empty bypasses it and is written blank, exactly like a non-leader row. -/
theorem claim_C8 :
    (∀ (rows out : List URow), add_unisex_tags_pass rows = Except.ok out →
       ∀ r ∈ out, r.gender = PyVal.none ∨
         ∃ xs, xs ≠ [] ∧ r.gender = PyVal.str (format_json_list xs)) ∧
    format_json_list [] = "[]" ∧
    add_unisex_tags_pass [⟨PyVal.str "h", PyVal.none⟩] =
      Except.ok [⟨PyVal.str "h", PyVal.none⟩] := by
  refine ⟨?_, rfl, rfl⟩
  intro rows out h
  obtain ⟨seen, hfold⟩ := add_unisex_tags_pass_fold rows out h
  exact add_unisex_tags_fold_shape rows ([], []) (seen, out) hfold
    (by intro r hr; cases hr)

/-- Claim C8 witness: a concrete non-blank output cell is a JSON array of a
non-empty list. -/
theorem claim_C8_witness :
    (⟨PyVal.str "h", PyVal.str "[\"Male\"]"⟩ : URow).gender = PyVal.none ∨
    ∃ xs, xs ≠ [] ∧
      (⟨PyVal.str "h", PyVal.str "[\"Male\"]"⟩ : URow).gender =
        PyVal.str (format_json_list xs) := by
  have h := claim_C8.1 [⟨PyVal.str "h", PyVal.str "[\"Male\"]"⟩]
    [⟨PyVal.str "h", PyVal.str "[\"Male\"]"⟩] rfl
  exact h ⟨PyVal.str "h", PyVal.str "[\"Male\"]"⟩ (by decide)

/-- Claim C10 (confirmed): the 5-0 leader tracker keys on the raw handle
cell under Python `==` — no normalization, trimming or case folding — and a
null handle is itself a valid key: all null-handle rows form one group
(every later one is blanked), while handles differing only in case or in
trailing whitespace are tracked as distinct leaders and each gets the
computed gender value. -/
theorem claim_C10 :
    (∀ (rows out : List URow), add_unisex_tags_pass rows = Except.ok out →
       BlankAfterLeader URow.handle URow.gender out) ∧
    (add_unisex_tags_pass
        [⟨PyVal.none, PyVal.str "[\"Male\"]"⟩, ⟨PyVal.none, PyVal.str "[\"Male\"]"⟩] =
      Except.ok
        [⟨PyVal.none, PyVal.str "[\"Male\"]"⟩, ⟨PyVal.none, PyVal.none⟩]) ∧
    (add_unisex_tags_pass
        [⟨PyVal.str "A", PyVal.str "[\"Male\"]"⟩, ⟨PyVal.str "a", PyVal.str "[\"Male\"]"⟩] =
      Except.ok
        [⟨PyVal.str "A", PyVal.str "[\"Male\"]"⟩, ⟨PyVal.str "a", PyVal.str "[\"Male\"]"⟩]) ∧
    (add_unisex_tags_pass
        [⟨PyVal.str "a ", PyVal.str "[\"Male\"]"⟩, ⟨PyVal.str "a", PyVal.str "[\"Male\"]"⟩] =
      Except.ok
        [⟨PyVal.str "a ", PyVal.str "[\"Male\"]"⟩, ⟨PyVal.str "a", PyVal.str "[\"Male\"]"⟩]) := by
  refine ⟨?_, rfl, rfl, rfl⟩
  intro rows out h
  obtain ⟨seen, hinv⟩ := add_unisex_tags_pass_inv rows out h
  exact hinv.2

/-- Claim C10 witness: the second null-handle row is blanked. -/
theorem claim_C10_witness :
    (([⟨PyVal.none, PyVal.str "[\"Male\"]"⟩, ⟨PyVal.none, PyVal.none⟩] :
        List URow).get ⟨1, by decide⟩).gender = PyVal.none := by
  have h := claim_C10.1
    [⟨PyVal.none, PyVal.str "[\"Male\"]"⟩, ⟨PyVal.none, PyVal.str "[\"Male\"]"⟩]
    [⟨PyVal.none, PyVal.str "[\"Male\"]"⟩, ⟨PyVal.none, PyVal.none⟩] rfl
  have h2 := h 0 1 (by decide) (by decide) (by decide) (by decide)
  rw [List.get_eq_getElem]
  exact h2

/-! ## Normalizer lemmas -/
theorem hasDoubleDash_cons_false {a : Char} {rest : List Char}
    (h : hasDoubleDash (a :: rest) = false) : hasDoubleDash rest = false := by
  cases rest with
  | nil => rfl
  | cons b rs =>
    simp only [hasDoubleDash, Bool.or_eq_false_iff] at h
    exact h.2

theorem replaceDashPairs_length_le :
    ∀ l : List Char, (replaceDashPairs l).length ≤ l.length
  | [] => le_refl _
  | [c] => le_refl _
  | a :: b :: rest => by
    simp only [replaceDashPairs]
    by_cases h : (a = '-' && b = '-') = true
    · rw [if_pos h]
      have := replaceDashPairs_length_le rest
      simp only [List.length_cons]
      omega
    · rw [if_neg h]
      have := replaceDashPairs_length_le (b :: rest)
      simp only [List.length_cons] at *
      omega

theorem replaceDashPairs_shortens :
    ∀ l : List Char, hasDoubleDash l = true →
      (replaceDashPairs l).length < l.length
  | [], h => by cases h
  | [c], h => by cases h
  | a :: b :: rest, h => by
    simp only [replaceDashPairs]
    by_cases hd : (a = '-' && b = '-') = true
    · rw [if_pos hd]
      have := replaceDashPairs_length_le rest
      simp only [List.length_cons]
      omega
    · rw [if_neg hd]
      simp only [hasDoubleDash, Bool.or_eq_true] at h
      rcases h with h | h
      · exact absurd h hd
      · have := replaceDashPairs_shortens (b :: rest) h
        simp only [List.length_cons] at *
        omega

theorem replaceDashPairs_all {p : Char → Bool} :
    ∀ l : List Char, (∀ c ∈ l, p c = true) →
      ∀ c ∈ replaceDashPairs l, p c = true
  | [], _, c, hc => by cases hc
  | [d], h, c, hc => h c hc
  | a :: b :: rest, h, c, hc => by
    simp only [replaceDashPairs] at hc
    by_cases hd : (a = '-' && b = '-') = true
    · rw [if_pos hd] at hc
      rcases List.mem_cons.mp hc with rfl | hc
      · have : a = '-' := by
          simp only [Bool.and_eq_true, decide_eq_true_eq] at hd
          exact hd.1
        exact this ▸ h a (by simp)
      · exact replaceDashPairs_all rest (fun d hd' => h d (by simp [hd'])) c hc
    · rw [if_neg hd] at hc
      rcases List.mem_cons.mp hc with rfl | hc
      · exact h c (by simp)
      · refine replaceDashPairs_all (b :: rest) ?_ c hc
        intro d hd'
        rcases List.mem_cons.mp hd' with rfl | hm
        · exact h d (by simp)
        · exact h d (by simp [hm])

theorem collapseDashesGo_all {p : Char → Bool} :
    ∀ (fuel : Nat) (l : List Char), (∀ c ∈ l, p c = true) →
      ∀ c ∈ collapseDashesGo fuel l, p c = true
  | 0, l, h => h
  | fuel + 1, l, h => by
    simp only [collapseDashesGo]
    by_cases hd : hasDoubleDash l = true
    · rw [if_pos hd]
      exact collapseDashesGo_all fuel (replaceDashPairs l) (replaceDashPairs_all l h)
    · rw [if_neg hd]
      exact h

theorem collapseDashesGo_noDD :
    ∀ (fuel : Nat) (l : List Char), l.length ≤ fuel →
      hasDoubleDash (collapseDashesGo fuel l) = false := by
  intro fuel
  induction fuel with
  | zero =>
    intro l hl
    have : l = [] := List.length_eq_zero.mp (Nat.le_zero.mp hl)
    subst this
    rfl
  | succ n ih =>
    intro l hl
    simp only [collapseDashesGo]
    cases hd : hasDoubleDash l with
    | false => simpa using hd
    | true =>
      simp only [if_true]
      exact ih (replaceDashPairs l)
        (by have := replaceDashPairs_shortens l hd; omega)

theorem collapseDashesGo_noop {fuel : Nat} {l : List Char}
    (h : hasDoubleDash l = false) : collapseDashesGo fuel l = l := by
  cases fuel with
  | zero => rfl
  | succ n => simp [collapseDashesGo, h]

theorem hasDoubleDash_append_singleton :
    ∀ (l : List Char) (c : Char),
      hasDoubleDash (l ++ [c]) =
        (hasDoubleDash l || (l.getLast? = some '-' && c = '-'))
  | [], c => by simp [hasDoubleDash]
  | [a], c => by simp [hasDoubleDash]
  | a :: b :: rest, c => by
    have ih := hasDoubleDash_append_singleton (b :: rest) c
    simp only [List.cons_append, List.append_eq, hasDoubleDash,
      List.getLast?_cons_cons] at ih ⊢
    rw [ih]
    simp [Bool.or_assoc]

theorem hasDoubleDash_reverse :
    ∀ l : List Char, hasDoubleDash l.reverse = hasDoubleDash l
  | [] => rfl
  | [c] => rfl
  | a :: b :: rest => by
    have ih := hasDoubleDash_reverse (b :: rest)
    have e : (a :: b :: rest).reverse = (b :: rest).reverse ++ [a] := by simp
    rw [e, hasDoubleDash_append_singleton, ih, List.getLast?_reverse]
    simp only [List.head?_cons, hasDoubleDash, Option.some.injEq]
    cases hb : (decide (b = '-')) <;> cases ha : (decide (a = '-')) <;>
      simp_all [Bool.or_comm]

theorem hasDoubleDash_dropWhile {p : Char → Bool} :
    ∀ l : List Char, hasDoubleDash l = false →
      hasDoubleDash (l.dropWhile p) = false
  | [], h => h
  | a :: rest, h => by
    simp only [List.dropWhile]
    cases hp : p a with
    | true =>
      simp only [if_true]
      exact hasDoubleDash_dropWhile rest (hasDoubleDash_cons_false h)
    | false => simpa using h

theorem stripEndsL_noDD {p : Char → Bool} {l : List Char}
    (h : hasDoubleDash l = false) : hasDoubleDash (stripEndsL p l) = false := by
  unfold stripEndsL
  rw [hasDoubleDash_reverse]
  exact hasDoubleDash_dropWhile _
    (by rw [hasDoubleDash_reverse]; exact hasDoubleDash_dropWhile _ h)

theorem stripEndsL_all {p q : Char → Bool} {l : List Char}
    (h : ∀ c ∈ l, q c = true) : ∀ c ∈ stripEndsL p l, q c = true := by
  intro c hc
  unfold stripEndsL at hc
  rw [List.mem_reverse] at hc
  have hc2 := (List.dropWhile_suffix p).subset hc
  rw [List.mem_reverse] at hc2
  exact h c ((List.dropWhile_suffix p).subset hc2)

theorem head?_dropWhile_false {p : Char → Bool} :
    ∀ (l : List Char) (a : Char), (l.dropWhile p).head? = some a → p a = false
  | [], a, h => by cases h
  | c :: rest, a, h => by
    simp only [List.dropWhile] at h
    cases hp : p c with
    | true =>
      rw [hp] at h
      simp only [if_true] at h
      exact head?_dropWhile_false rest a h
    | false =>
      rw [hp] at h
      simp only [if_false, List.head?_cons, Option.some.injEq] at h
      subst h
      exact hp

theorem dropWhile_eq_self_of_false {p : Char → Bool} {l : List Char}
    (h : ∀ c ∈ l, p c = false) : l.dropWhile p = l := by
  cases l with
  | nil => rfl
  | cons a rest => simp [List.dropWhile, h a (by simp)]

theorem stripEndsL_eq_self {p : Char → Bool} {l : List Char}
    (h : ∀ c ∈ l, p c = false) : stripEndsL p l = l := by
  unfold stripEndsL
  rw [dropWhile_eq_self_of_false h,
      dropWhile_eq_self_of_false (fun c hc => h c (List.mem_reverse.mp hc)),
      List.reverse_reverse]

theorem getLast?_suffix {l₁ l₂ : List Char} (h : l₁ <:+ l₂) (hne : l₁ ≠ []) :
    l₁.getLast? = l₂.getLast? := by
  obtain ⟨t, rfl⟩ := h
  rw [List.getLast?_append_of_ne_nil _ hne]

theorem stripEndsL_head {p : Char → Bool} (l : List Char) (a : Char)
    (h : (stripEndsL p l).head? = some a) : p a = false := by
  unfold stripEndsL at h
  rw [List.head?_reverse] at h
  have hne : (l.dropWhile p).reverse.dropWhile p ≠ [] := by
    intro hcon
    rw [hcon] at h
    cases h
  rw [getLast?_suffix (List.dropWhile_suffix p) hne, List.getLast?_reverse] at h
  exact head?_dropWhile_false _ _ h

theorem stripEndsL_getLast {p : Char → Bool} (l : List Char) (a : Char)
    (h : (stripEndsL p l).getLast? = some a) : p a = false := by
  unfold stripEndsL at h
  rw [List.getLast?_reverse] at h
  exact head?_dropWhile_false _ _ h

theorem pyLowerChar_normal_of_kept (c : Char) :
    (pyIsAsciiAlnum (pyLowerChar c) || pyLowerChar c = '-') = true →
    isNormalChar (pyLowerChar c) = true := by
  intro hk
  unfold isNormalChar
  rw [hk]
  unfold pyLowerChar at *
  by_cases h : 'A' ≤ c ∧ c ≤ 'Z'
  · rw [if_pos h] at *
    obtain ⟨h1, h2⟩ := h
    rw [Char.le_def] at h1 h2
    have h1' : 65 ≤ c.toNat := h1
    have h2' : c.toNat ≤ 90 := h2
    have hv : (c.toNat + 32).isValidChar := by left; omega
    have ht : (Char.ofNat (c.toNat + 32)).toNat = c.toNat + 32 := by
      unfold Char.ofNat
      rw [dif_pos hv]
      rfl
    simp only [Bool.true_and, Bool.not_eq_true', isAsciiUpper, Bool.and_eq_false_iff]
    right
    simp only [decide_eq_false_iff_not]
    intro hle
    rw [Char.le_def] at hle
    have : (Char.ofNat (c.toNat + 32)).toNat ≤ 90 := hle
    omega
  · rw [if_neg h] at *
    by_cases hE : c = 'É'
    · rw [if_pos hE] at *
      decide
    · rw [if_neg hE] at *
      simp only [Bool.true_and, Bool.not_eq_true', isAsciiUpper, Bool.and_eq_false_iff]
      by_cases hA : 'A' ≤ c
      · right
        simp only [decide_eq_false_iff_not]
        intro hZ
        exact h ⟨hA, hZ⟩
      · left
        simp only [decide_eq_false_iff_not]
        exact hA

theorem isNormalChar_bounds {c : Char} (h : isNormalChar c = true) :
    c.toNat = 45 ∨ (48 ≤ c.toNat ∧ c.toNat ≤ 57) ∨ (97 ≤ c.toNat ∧ c.toNat ≤ 122) := by
  unfold isNormalChar isAsciiUpper pyIsAsciiAlnum at h
  simp only [Bool.and_eq_true, Bool.or_eq_true, decide_eq_true_eq, Bool.not_eq_true',
    Bool.and_eq_false_iff, decide_eq_false_iff_not] at h
  obtain ⟨hh, hu⟩ := h
  rcases hh with ((⟨ha, hz⟩ | ⟨hA, hZ⟩) | ⟨h0, h9⟩) | hd
  · rw [Char.le_def] at ha hz
    right; right
    exact ⟨ha, hz⟩
  · rcases hu with hu | hu
    · exact absurd hA hu
    · exact absurd hZ hu
  · rw [Char.le_def] at h0 h9
    right; left
    exact ⟨h0, h9⟩
  · left
    rw [hd]
    rfl

theorem isNormalChar_pyLowerChar_id {c : Char} (h : isNormalChar c = true) :
    pyLowerChar c = c := by
  have hb := isNormalChar_bounds h
  unfold pyLowerChar
  rw [if_neg, if_neg]
  · intro he
    rw [he] at hb
    revert hb
    decide
  · intro ⟨h1, h2⟩
    rw [Char.le_def] at h1 h2
    have h1' : 65 ≤ c.toNat := h1
    have h2' : c.toNat ≤ 90 := h2
    omega

theorem isNormalChar_nfkdChar_id {c : Char} (h : isNormalChar c = true) :
    nfkdChar c = [c] := by
  have hb := isNormalChar_bounds h
  unfold nfkdChar
  rw [if_neg, if_neg]
  · intro he
    rw [he] at hb
    revert hb
    decide
  · intro he
    rw [he] at hb
    revert hb
    decide

theorem isNormalChar_not_problematic {c : Char} (h : isNormalChar c = true) :
    isProblematicSymbol c = false := by
  have hb := isNormalChar_bounds h
  unfold isProblematicSymbol
  simp only [Bool.or_eq_false_iff, decide_eq_false_iff_not]
  refine ⟨⟨⟨?_, ?_⟩, ?_⟩, ?_⟩ <;>
    · intro he
      rw [he] at hb
      revert hb
      decide

theorem isNormalChar_not_space {c : Char} (h : isNormalChar c = true) :
    pyIsSpace c = false := by
  have hb := isNormalChar_bounds h
  unfold pyIsSpace
  simp only [Bool.or_eq_false_iff, decide_eq_false_iff_not]
  refine ⟨⟨⟨⟨⟨?_, ?_⟩, ?_⟩, ?_⟩, ?_⟩, ?_⟩ <;>
    · intro he
      rw [he] at hb
      revert hb
      decide

theorem isNormalChar_kept {c : Char} (h : isNormalChar c = true) :
    (pyIsAsciiAlnum c || c = '-') = true := by
  simp only [isNormalChar, Bool.and_eq_true] at h
  exact h.1

/-- Every character of the filter stage's output is a lowercase ASCII
letter, a digit, or a hyphen. -/
theorem normalizeFiltered_chars (s : String) :
    ∀ c ∈ normalizeFiltered s, isNormalChar c = true := by
  intro c hc
  unfold normalizeFiltered at hc
  rw [List.mem_filter] at hc
  obtain ⟨hmem, hkeep⟩ := hc
  rw [List.mem_flatten] at hmem
  obtain ⟨l, hl, hcl⟩ := hmem
  rw [List.mem_map] at hl
  obtain ⟨d, hd, rfl⟩ := hl
  rw [List.mem_filter] at hd
  obtain ⟨hd', _⟩ := hd
  unfold pyLower at hd'
  rw [show (String.mk (s.toList.map pyLowerChar)).toList = s.toList.map pyLowerChar
      from rfl] at hd'
  rw [List.mem_map] at hd'
  obtain ⟨e, _, rfl⟩ := hd'
  -- d = pyLowerChar e; c ∈ nfkdChar d
  unfold nfkdChar at hcl
  by_cases he : pyLowerChar e = 'é'
  · rw [if_pos he] at hcl
    rcases List.mem_cons.mp hcl with rfl | hcl
    · exact (by decide : isNormalChar 'e' = true)
    · rcases List.mem_singleton.mp hcl with rfl
      -- the combining mark is not kept by the ASCII filter
      exact absurd hkeep (by decide)
  · by_cases hE : pyLowerChar e = 'É'
    · exact absurd hE (by
        unfold pyLowerChar
        by_cases h : 'A' ≤ e ∧ e ≤ 'Z'
        · rw [if_pos h]
          obtain ⟨h1, h2⟩ := h
          rw [Char.le_def] at h1 h2
          have h2' : e.toNat ≤ 90 := h2
          have hv : (e.toNat + 32).isValidChar := by left; omega
          have ht : (Char.ofNat (e.toNat + 32)).toNat = e.toNat + 32 := by
            unfold Char.ofNat
            rw [dif_pos hv]
            rfl
          intro heq
          have := congrArg Char.toNat heq
          rw [ht] at this
          have hE2 : ('É').toNat = 201 := rfl
          omega
        · rw [if_neg h]
          by_cases hEe : e = 'É'
          · rw [if_pos hEe]; decide
          · rw [if_neg hEe]; exact hEe)
    · rw [if_neg he, if_neg hE] at hcl
      rcases List.mem_singleton.mp hcl with rfl
      exact pyLowerChar_normal_of_kept e hkeep

/-- Representation of a non-trivial `normalize_handle` result: the trailing
whitespace strip is a no-op, so the result is the hyphen-stripped collapse of
the filter stage. -/
theorem normalize_handle_repr (s : String) (hs : ¬(s = "")) :
    (normalize_handle (some s)).toList =
      stripEndsL (fun c => c = '-')
        (collapseDashesGo (normalizeFiltered s).length (normalizeFiltered s)) := by
  have h1 : normalize_handle (some s) =
      pyStrip (pyStripChar '-' (String.mk
        (collapseDashesGo (normalizeFiltered s).length (normalizeFiltered s)))) := by
    show (if s = "" then ""
      else pyStrip (pyStripChar '-' (String.mk
        (collapseDashesGo (normalizeFiltered s).length (normalizeFiltered s))))) = _
    rw [if_neg hs]
  rw [h1]
  show stripEndsL pyIsSpace (stripEndsL (fun c => c = '-')
    (collapseDashesGo (normalizeFiltered s).length (normalizeFiltered s))) = _
  apply stripEndsL_eq_self
  intro c hc
  have hnorm := stripEndsL_all
    (collapseDashesGo_all (normalizeFiltered s).length (normalizeFiltered s)
      (normalizeFiltered_chars s)) c hc
  exact isNormalChar_not_space hnorm

theorem normalize_handle_chars (h : Option String) :
    ∀ c ∈ (normalize_handle h).toList, isNormalChar c = true := by
  match h with
  | Option.none => intro c hc; cases hc
  | some s =>
    by_cases hs : s = ""
    · subst hs
      intro c hc
      cases hc
    · rw [normalize_handle_repr s hs]
      exact stripEndsL_all
        (collapseDashesGo_all (normalizeFiltered s).length (normalizeFiltered s)
          (normalizeFiltered_chars s))

theorem normalize_handle_noDD (h : Option String) :
    hasDoubleDash (normalize_handle h).toList = false := by
  match h with
  | Option.none => rfl
  | some s =>
    by_cases hs : s = ""
    · subst hs; rfl
    · rw [normalize_handle_repr s hs]
      exact stripEndsL_noDD
        (collapseDashesGo_noDD (normalizeFiltered s).length (normalizeFiltered s)
          (le_refl _))

theorem normalize_handle_head (h : Option String) (a : Char)
    (ha : (normalize_handle h).toList.head? = some a) : ¬(a = '-') := by
  match h with
  | Option.none => cases ha
  | some s =>
    by_cases hs : s = ""
    · subst hs; cases ha
    · rw [normalize_handle_repr s hs] at ha
      have := stripEndsL_head _ a ha
      simpa using this

theorem normalize_handle_getLast (h : Option String) (a : Char)
    (ha : (normalize_handle h).toList.getLast? = some a) : ¬(a = '-') := by
  match h with
  | Option.none => cases ha
  | some s =>
    by_cases hs : s = ""
    · subst hs; cases ha
    · rw [normalize_handle_repr s hs] at ha
      have := stripEndsL_getLast _ a ha
      simpa using this

theorem dropWhile_eq_self_of_head {p : Char → Bool} {l : List Char}
    (h : ∀ a, l.head? = some a → p a = false) : l.dropWhile p = l := by
  cases l with
  | nil => rfl
  | cons a rest => simp [List.dropWhile, h a rfl]

theorem stripEndsL_eq_self_of_edges {p : Char → Bool} {l : List Char}
    (hh : ∀ a, l.head? = some a → p a = false)
    (hl : ∀ a, l.getLast? = some a → p a = false) : stripEndsL p l = l := by
  unfold stripEndsL
  rw [dropWhile_eq_self_of_head hh]
  rw [dropWhile_eq_self_of_head
    (fun a ha => hl a (by rwa [List.head?_reverse] at ha))]
  rw [List.reverse_reverse]

theorem flatten_singletons {α : Type} :
    ∀ l : List α, (l.map (fun c => [c])).flatten = l
  | [] => rfl
  | c :: rest => by simp [flatten_singletons rest]

theorem normalize_handle_idem (h : Option String) :
    normalize_handle (some (normalize_handle h)) = normalize_handle h := by
  by_cases ht : normalize_handle h = ""
  · rw [ht]
    rfl
  · have hchars := normalize_handle_chars h
    have hnoDD := normalize_handle_noDD h
    have h1 : normalize_handle (some (normalize_handle h)) =
        pyStrip (pyStripChar '-' (String.mk (collapseDashesGo
          (normalizeFiltered (normalize_handle h)).length
          (normalizeFiltered (normalize_handle h))))) := by
      show (if normalize_handle h = "" then ""
        else pyStrip (pyStripChar '-' (String.mk (collapseDashesGo
          (normalizeFiltered (normalize_handle h)).length
          (normalizeFiltered (normalize_handle h)))))) = _
      rw [if_neg ht]
    rw [h1]
    have hf : normalizeFiltered (normalize_handle h) = (normalize_handle h).toList := by
      have e1 : pyLower (normalize_handle h) = normalize_handle h := by
        unfold pyLower
        rw [List.map_congr_left
          (fun c hc => isNormalChar_pyLowerChar_id (hchars c hc))]
        rw [List.map_id']
        exact mk_toList _
      have e2 : (normalize_handle h).toList.filter (fun c => !isProblematicSymbol c) =
          (normalize_handle h).toList :=
        List.filter_eq_self.mpr (fun c hc => by
          simpa using isNormalChar_not_problematic (hchars c hc))
      have e3 : (normalize_handle h).toList.map nfkdChar =
          (normalize_handle h).toList.map (fun c => [c]) :=
        List.map_congr_left (fun c hc => isNormalChar_nfkdChar_id (hchars c hc))
      unfold normalizeFiltered
      rw [e1, e2, e3, flatten_singletons]
      exact List.filter_eq_self.mpr (fun c hc => isNormalChar_kept (hchars c hc))
    rw [hf]
    rw [collapseDashesGo_noop hnoDD]
    have h2 : pyStripChar '-' (String.mk (normalize_handle h).toList) =
        String.mk (normalize_handle h).toList := by
      unfold pyStripChar
      congr 1
      apply stripEndsL_eq_self_of_edges
      · intro a ha
        simpa using normalize_handle_head h a ha
      · intro a ha
        simpa using normalize_handle_getLast h a ha
    rw [h2]
    unfold pyStrip
    show String.mk (stripEndsL pyIsSpace (normalize_handle h).toList) =
      normalize_handle h
    rw [stripEndsL_eq_self (p := pyIsSpace)
      (fun c hc => isNormalChar_not_space (hchars c hc))]
    exact mk_toList _

/-- Claim C6 (confirmed): `normalize_handle` lowercases, removes the
trademark/registered/copyright/service-mark symbols before NFKD
decomposition, keeps only ASCII letters, digits and hyphens, collapses
hyphen runs, trims edge hyphens, and maps null/empty input to the empty
string; `normalize("Brand™ Socks") = normalize("Brand Socks")`,
`normalize("Café") = "cafe"`, and `normalize` is idempotent on its own
outputs. -/
theorem claim_C6 :
    normalize_handle Option.none = "" ∧
    normalize_handle (some "") = "" ∧
    normalize_handle (some "Brand™ Socks") = normalize_handle (some "Brand Socks") ∧
    normalize_handle (some "Café") = "cafe" ∧
    (∀ h : Option String,
      (normalize_handle h).toList.all (fun c => pyIsAsciiAlnum c || c = '-') = true ∧
      hasDoubleDash (normalize_handle h).toList = false ∧
      ((normalize_handle h).toList.head? == some '-') = false ∧
      ((normalize_handle h).toList.getLast? == some '-') = false) ∧
    (∀ h : Option String,
      normalize_handle (some (normalize_handle h)) = normalize_handle h) := by
  refine ⟨rfl, rfl, by decide, by decide, ?_, normalize_handle_idem⟩
  intro h
  refine ⟨?_, normalize_handle_noDD h, ?_, ?_⟩
  · rw [List.all_eq_true]
    exact fun c hc => isNormalChar_kept (normalize_handle_chars h c hc)
  · cases hh : (normalize_handle h).toList.head? with
    | none => rfl
    | some a =>
      simp only [beq_eq_false_iff_ne, ne_eq, Option.some.injEq]
      exact normalize_handle_head h a hh
  · cases hh : (normalize_handle h).toList.getLast? with
    | none => rfl
    | some a =>
      simp only [beq_eq_false_iff_ne, ne_eq, Option.some.injEq]
      exact normalize_handle_getLast h a hh

/-- Claim C9 (confirmed): when rule 2 of the gender merge fires (incoming
absent under `==`, its opposite present), every `==`-occurrence of the
opposite in the current list is replaced by the incoming gender, position by
position — so duplicates of the opposite become duplicates of the incoming
gender. -/
theorem claim_C9 (current : List PyVal) (incoming opp : String)
    (h₁ : pyContains current (.str incoming) = false)
    (h₂ : get_opposite_gender incoming = some opp)
    (h₃ : pyContains current (.str opp) = true) :
    update_gender_list current incoming =
      (current.map (fun g => if pyEq g (.str opp) then .str incoming else g),
       true) := by
  unfold update_gender_list
  rw [h₁, h₂]
  simp [h₃]

/-- Claim C9 witness: `merge(["Male", "Male"], "Female") =
(["Female", "Female"], true)`. -/
theorem claim_C9_witness :
    update_gender_list [PyVal.str "Male", PyVal.str "Male"] "Female" =
      ([PyVal.str "Female", PyVal.str "Female"], true) := by
  have h := claim_C9 [PyVal.str "Male", PyVal.str "Male"] "Female" "Male"
    (by decide) rfl (by decide)
  rw [h]
  rfl

theorem anyLowerEq_map_str (target : String) :
    ∀ gs : List String,
      anyLowerEq target (gs.map PyVal.str) = .ok (containsGenderCI gs target)
  | [] => rfl
  | a :: l => by
    simp only [List.map_cons, anyLowerEq, containsGenderCI, List.any_cons]
    by_cases hp : pyLower a = target
    · simp [hp]
    · rw [if_neg hp, anyLowerEq_map_str target l]
      simp [containsGenderCI, hp]

theorem should_add_unisex_map_str (gs : List String) :
    should_add_unisex (gs.map PyVal.str) =
      .ok (containsGenderCI gs "male" && containsGenderCI gs "female" &&
           !containsGenderCI gs "unisex") := by
  unfold should_add_unisex
  by_cases hl : (gs.map PyVal.str).length < 2
  · rw [if_pos hl]
    rw [List.length_map] at hl
    rcases gs with _ | ⟨a, _ | ⟨b, r⟩⟩
    · rfl
    · have hmf : (containsGenderCI [a] "male" && containsGenderCI [a] "female") =
          false := by
        by_cases hm : pyLower a = "male"
        · simp [containsGenderCI, hm]
        · simp [containsGenderCI, hm]
      simp [hmf]
    · simp only [List.length_cons] at hl
      omega
  · rw [if_neg hl]
    show (anyLowerEq "male" (gs.map PyVal.str)).bind _ = _
    rw [anyLowerEq_map_str]
    show (anyLowerEq "female" (gs.map PyVal.str)).bind _ = _
    rw [anyLowerEq_map_str]
    show (anyLowerEq "unisex" (gs.map PyVal.str)).bind _ = _
    rw [anyLowerEq_map_str]
    rfl

theorem addUnisexIfComplete_map_str (gs : List String) :
    addUnisexIfComplete (gs.map PyVal.str) =
      .ok (if containsGenderCI gs "male" && containsGenderCI gs "female" &&
              !containsGenderCI gs "unisex"
           then gs.map PyVal.str ++ [PyVal.str "Unisex"]
           else gs.map PyVal.str) := by
  unfold addUnisexIfComplete
  show (should_add_unisex (gs.map PyVal.str)).bind _ = _
  rw [should_add_unisex_map_str]
  cases hc : (containsGenderCI gs "male" && containsGenderCI gs "female" &&
      !containsGenderCI gs "unisex") with
  | true => rfl
  | false => rfl

theorem containsGenderCI_append (gs : List String) (x target : String) :
    containsGenderCI (gs ++ [x]) target =
      (containsGenderCI gs target || (pyLower x = target : Bool)) := by
  simp [containsGenderCI, List.any_append]

/-- Claim C7 (confirmed): on a list of string tags, the unisex-completion
update appends `"Unisex"` at the end exactly when the list contains both
Male and Female case-insensitively but not Unisex case-insensitively, and
otherwise returns the list unchanged; applying it twice gives the same
result as applying it once, so repeated application never duplicates
Unisex and never reorders or modifies the existing entries. -/
theorem claim_C7 :
    (∀ gs : List String,
      addUnisexIfComplete (gs.map PyVal.str) =
        .ok (if containsGenderCI gs "male" && containsGenderCI gs "female" &&
                !containsGenderCI gs "unisex"
             then gs.map PyVal.str ++ [PyVal.str "Unisex"]
             else gs.map PyVal.str)) ∧
    (∀ gs : List String,
      (addUnisexIfComplete (gs.map PyVal.str)).bind addUnisexIfComplete =
        addUnisexIfComplete (gs.map PyVal.str)) := by
  refine ⟨addUnisexIfComplete_map_str, ?_⟩
  intro gs
  rw [addUnisexIfComplete_map_str]
  cases hc : (containsGenderCI gs "male" && containsGenderCI gs "female" &&
      !containsGenderCI gs "unisex") with
  | false =>
    simp only [Bool.false_eq_true, if_false]
    show addUnisexIfComplete (gs.map PyVal.str) = _
    rw [addUnisexIfComplete_map_str, hc]
    simp
  | true =>
    simp only [if_true]
    rw [show gs.map PyVal.str ++ [PyVal.str "Unisex"] =
        (gs ++ ["Unisex"]).map PyVal.str from by simp]
    show addUnisexIfComplete ((gs ++ ["Unisex"]).map PyVal.str) = _
    rw [addUnisexIfComplete_map_str]
    have hu : containsGenderCI (gs ++ ["Unisex"]) "unisex" = true := by
      rw [containsGenderCI_append]
      have hlow : pyLower "Unisex" = "unisex" := by decide
      simp [hlow]
    rw [hu]
    simp

/-- Claim C5 counterexample: a cell holding the JSON list `[1, 2]` decodes
to a list of integers, and the unisex-completion check raises
`AttributeError` when it calls `.lower()` on the first element. -/
theorem claim_C5_counterexample :
    should_add_unisex (parse_json_list (PyVal.str "[1, 2]")) =
      .error PyErr.attributeError := rfl

/-- Claim C5 (amended): the tag-list decoder never raises — a null or empty
cell decodes to the empty list and an unparseable cell degrades to a
single-element list holding the raw text — and the unisex-completion check
returns a result on every decoded list whose elements are all strings; but
it can raise on decoded lists with non-string elements (see the
counterexample). -/
theorem claim_C5 :
    parse_json_list PyVal.none = [] ∧
    parse_json_list (PyVal.str "") = [] ∧
    (∀ s : String, ¬(s = "") → json_loads s = Option.none →
      parse_json_list (PyVal.str s) = [PyVal.str s]) ∧
    (∀ gs : List String, ∃ b, should_add_unisex (gs.map PyVal.str) = .ok b) := by
  refine ⟨rfl, rfl, ?_, ?_⟩
  · intro s hs hj
    unfold parse_json_list
    have hps : pyEq (PyVal.str s) (PyVal.str "") = false := by
      cases hp : pyEq (PyVal.str s) (PyVal.str "") with
      | false => rfl
      | true => exact absurd ((pyEq_str_iff s "").mp hp) hs
    simp [hps, hj]
  · intro gs
    exact ⟨_, should_add_unisex_map_str gs⟩

/-- Claim C5 witness: a comma-separated cell is not JSON; it degrades to the
raw text. -/
theorem claim_C5_witness :
    parse_json_list (PyVal.str "Male, Female") = [PyVal.str "Male, Female"] :=
  claim_C5.2.2.1 "Male, Female" (by decide) rfl

theorem get_opposite_eq_amended (s : String) :
    get_opposite_gender s = oppositeOfAmended s := rfl

theorem pyContains_map_str (gs : List String) (x : String) :
    pyContains (gs.map PyVal.str) (PyVal.str x) = hasEntry gs x := by
  induction gs with
  | nil => rfl
  | cons a l ih =>
    simp only [List.map_cons, pyContains, List.any_cons, hasEntry] at *
    congr 1
    cases h : decide (a = x) with
    | true =>
      have ha : a = x := of_decide_eq_true h
      subst ha
      simp [pyEq_refl]
    | false =>
      have ha : ¬(a = x) := of_decide_eq_false h
      cases hp : pyEq (PyVal.str a) (PyVal.str x) with
      | false => rfl
      | true => exact absurd ((pyEq_str_iff a x).mp hp) ha

theorem map_str_replace (gs : List String) (opp incoming : String) :
    (gs.map PyVal.str).map
        (fun g => if pyEq g (PyVal.str opp) then PyVal.str incoming else g) =
      (gs.map (fun g => if g = opp then incoming else g)).map PyVal.str := by
  rw [List.map_map, List.map_map]
  apply List.map_congr_left
  intro g _
  by_cases h : g = opp
  · subst h
    simp [pyEq_refl]
  · have hp : pyEq (PyVal.str g) (PyVal.str opp) = false := by
      cases hp : pyEq (PyVal.str g) (PyVal.str opp) with
      | false => rfl
      | true => exact absurd ((pyEq_str_iff g opp).mp hp) h
    simp [hp, h]

/-- Claim C2 counterexample: on `(["Male", "Male"], "Female")` the code
replaces both occurrences, while the claim's rule 2 replaces the single
opposite entry — the results differ. -/
theorem claim_C2_counterexample :
    ¬(update_gender_list [PyVal.str "Male", PyVal.str "Male"] "Female" =
        ((mergeSpecLiteral ["Male", "Male"] "Female").1.map PyVal.str,
         (mergeSpecLiteral ["Male", "Male"] "Female").2)) := by
  decide

/-- Claim C2 (amended): on string gender lists, `update_gender_list` applies
exactly the four rules in priority order, where the opposite of incoming is
computed case-insensitively (any casing of "male" ↔ "Female", of "female" ↔
"Male", nothing else has an opposite) and rule 2 replaces every occurrence
of the opposite in place; rules 3 and 4 append at the end, with an empty
current list yielding a singleton. -/
theorem claim_C2 (gs : List String) (incoming : String) :
    update_gender_list (gs.map PyVal.str) incoming =
      ((mergeSpecAmended gs incoming).1.map PyVal.str,
       (mergeSpecAmended gs incoming).2) := by
  unfold update_gender_list mergeSpecAmended
  rw [pyContains_map_str, ← get_opposite_eq_amended]
  cases h1 : hasEntry gs incoming with
  | true => simp
  | false =>
    simp only [Bool.false_eq_true, if_false]
    cases ho : get_opposite_gender incoming with
    | none =>
      simp only []
      rw [pyContains_map_str]
      cases h3 : hasEntry gs "Unisex" with
      | true => simp
      | false =>
        simp only [Bool.false_eq_true, if_false]
        by_cases h4 : gs = []
        · subst h4
          simp
        · rw [if_neg (by simpa using h4)]
          simp
    | some opp =>
      simp only []
      rw [pyContains_map_str]
      cases h2 : hasEntry gs opp with
      | true =>
        simp only [if_true]
        rw [map_str_replace]
      | false =>
        simp only [Bool.false_eq_true, if_false]
        rw [pyContains_map_str]
        cases h3 : hasEntry gs "Unisex" with
        | true => simp
        | false =>
          simp only [Bool.false_eq_true, if_false]
          by_cases h4 : gs = []
          · subst h4
            simp
          · rw [if_neg (by simpa using h4)]
            simp

theorem dictGet_dictInsert :
    ∀ (d : List (String × String)) (k v k' : String),
      dictGet (dictInsert d k v) k' =
        if k' = k then some v else dictGet d k'
  | [], k, v, k' => by
    by_cases h : k' = k
    · subst h
      simp [dictInsert, dictGet, List.find?]
    · have h2 : ¬(k = k') := fun hh => h hh.symm
      simp [dictInsert, dictGet, List.find?, h, h2]
  | (a, b) :: tl, k, v, k' => by
    by_cases hak : a = k
    · subst hak
      simp only [dictInsert, if_pos rfl]
      by_cases h : k' = a
      · subst h
        simp [dictGet, List.find?]
      · have h2 : ¬(a = k') := fun hh => h hh.symm
        simp [dictGet, List.find?, h, h2]
    · simp only [dictInsert, if_neg hak]
      by_cases h : k' = a
      · subst h
        have h2 : ¬(k' = k) := fun hh => hak hh
        simp [dictGet, List.find?, h2]
      · have h2 : ¬(a = k') := fun hh => h hh.symm
        have hd : (decide (a = k') : Bool) = false := decide_eq_false h2
        simp only [dictGet, List.find?, hd]
        have ih := dictGet_dictInsert tl k v k'
        simp only [dictGet] at ih
        exact ih

theorem extract_handles_step_none {st : List String × List (String × String)}
    {c : PyVal} (hc : cleanedRefCell c = Option.none) :
    extract_handles_step st c = st := by
  cases c with
  | none => rfl
  | bool b =>
    simp only [cleanedRefCell] at hc
    simp only [extract_handles_step]
    by_cases h : pyStrip (pyStr (PyVal.bool b)) = ""
    · rw [if_pos h]
    · rw [if_neg h] at hc ⊢
      cases hc
  | int n =>
    simp only [cleanedRefCell] at hc
    simp only [extract_handles_step]
    by_cases h : pyStrip (pyStr (PyVal.int n)) = ""
    · rw [if_pos h]
    · rw [if_neg h] at hc ⊢
      cases hc
  | str s =>
    simp only [cleanedRefCell] at hc
    simp only [extract_handles_step]
    by_cases h : pyStrip (pyStr (PyVal.str s)) = ""
    · rw [if_pos h]
    · rw [if_neg h] at hc ⊢
      cases hc

theorem extract_handles_step_some {st : List String × List (String × String)}
    {c : PyVal} {s : String} (hc : cleanedRefCell c = some s) :
    extract_handles_step st c =
      ((if st.1.contains (normalize_handle (some s)) then st.1
        else st.1 ++ [normalize_handle (some s)]),
       dictInsert st.2 (normalize_handle (some s)) s) := by
  cases c with
  | none => cases hc
  | bool b =>
    simp only [cleanedRefCell] at hc
    simp only [extract_handles_step]
    by_cases h : pyStrip (pyStr (PyVal.bool b)) = ""
    · rw [if_pos h] at hc; cases hc
    · rw [if_neg h] at hc ⊢
      cases hc
      rfl
  | int n =>
    simp only [cleanedRefCell] at hc
    simp only [extract_handles_step]
    by_cases h : pyStrip (pyStr (PyVal.int n)) = ""
    · rw [if_pos h] at hc; cases hc
    · rw [if_neg h] at hc ⊢
      cases hc
      rfl
  | str t =>
    simp only [cleanedRefCell] at hc
    simp only [extract_handles_step]
    by_cases h : pyStrip (pyStr (PyVal.str t)) = ""
    · rw [if_pos h] at hc; cases hc
    · rw [if_neg h] at hc ⊢
      cases hc
      rfl

theorem lastOriginalFor_cons_none {c : PyVal} {rest : List PyVal} {key : String}
    (hc : cleanedRefCell c = Option.none) :
    lastOriginalFor (c :: rest) key = lastOriginalFor rest key := by
  unfold lastOriginalFor
  rw [List.filterMap_cons_none hc]

theorem lastOriginalFor_cons_some {c : PyVal} {rest : List PyVal} {s key : String}
    (hc : cleanedRefCell c = some s) :
    lastOriginalFor (c :: rest) key =
      ((lastOriginalFor rest key).or
        (if normalize_handle (some s) = key then some s else Option.none)) := by
  unfold lastOriginalFor
  rw [List.filterMap_cons_some hc, List.reverse_cons, List.find?_append]
  congr 1
  simp only [List.find?]
  by_cases h : normalize_handle (some s) = key
  · simp [h]
  · simp [h]

/-- The mapping built by the reference extraction resolves every key to the
last matching occurrence's original text (falling back to the initial
accumulator's binding). -/
theorem extract_mapping_spec :
    ∀ (cells : List PyVal) (st : List String × List (String × String))
      (key : String),
      dictGet (cells.foldl extract_handles_step st).2 key =
        ((lastOriginalFor cells key).or (dictGet st.2 key)) := by
  intro cells
  induction cells with
  | nil =>
    intro st key
    simp [lastOriginalFor, Option.or]
  | cons c rest ih =>
    intro st key
    rw [List.foldl_cons, ih]
    cases hc : cleanedRefCell c with
    | none =>
      rw [extract_handles_step_none hc, lastOriginalFor_cons_none hc]
    | some s =>
      rw [extract_handles_step_some hc, lastOriginalFor_cons_some hc]
      show (lastOriginalFor rest key).or
          (dictGet (dictInsert st.2 (normalize_handle (some s)) s) key) = _
      rw [dictGet_dictInsert]
      cases hrest : lastOriginalFor rest key with
      | some o => rfl
      | none =>
        simp only [Option.none_or]
        by_cases hk : normalize_handle (some s) = key
        · rw [if_pos hk, if_pos hk.symm]
          rfl
        · rw [if_neg hk, if_neg (fun hh => hk hh.symm)]
          rfl

/-- Every key recorded in the normalized-handle set has a binding in the
mapping. -/
theorem extract_set_mapping :
    ∀ (cells : List PyVal) (st : List String × List (String × String)),
      (∀ k, k ∈ st.1 → (dictGet st.2 k).isSome = true) →
      ∀ k, k ∈ (cells.foldl extract_handles_step st).1 →
        (dictGet (cells.foldl extract_handles_step st).2 k).isSome = true := by
  intro cells
  induction cells with
  | nil => intro st h k hk; exact h k hk
  | cons c rest ih =>
    intro st h k hk
    rw [List.foldl_cons] at hk ⊢
    cases hc : cleanedRefCell c with
    | none =>
      rw [extract_handles_step_none hc] at hk ⊢
      exact ih st h k hk
    | some s =>
      rw [extract_handles_step_some hc] at hk ⊢
      refine ih _ ?_ k hk
      intro k' hk'
      rw [show (((if st.1.contains (normalize_handle (some s)) then st.1
            else st.1 ++ [normalize_handle (some s)]),
           dictInsert st.2 (normalize_handle (some s)) s)).2 =
          dictInsert st.2 (normalize_handle (some s)) s from rfl]
      rw [dictGet_dictInsert]
      by_cases hkn : k' = normalize_handle (some s)
      · rw [if_pos hkn]
        rfl
      · rw [if_neg hkn]
        apply h
        by_cases hcont : st.1.contains (normalize_handle (some s)) = true
        · rw [show (((if st.1.contains (normalize_handle (some s)) then st.1
              else st.1 ++ [normalize_handle (some s)]),
             dictInsert st.2 (normalize_handle (some s)) s)).1 =
            (if st.1.contains (normalize_handle (some s)) then st.1
              else st.1 ++ [normalize_handle (some s)]) from rfl, hcont,
            if_pos rfl] at hk'
          · exact hk'
        · have hcont' : st.1.contains (normalize_handle (some s)) = false := by
            cases hx : st.1.contains (normalize_handle (some s))
            · rfl
            · exact absurd hx hcont
          rw [show (((if st.1.contains (normalize_handle (some s)) then st.1
              else st.1 ++ [normalize_handle (some s)]),
             dictInsert st.2 (normalize_handle (some s)) s)).1 =
            (if st.1.contains (normalize_handle (some s)) then st.1
              else st.1 ++ [normalize_handle (some s)]) from rfl, hcont'] at hk'
          simp only [Bool.false_eq_true, if_false] at hk'
          rcases List.mem_append.mp hk' with hm | hm
          · exact hm
          · rcases List.mem_singleton.mp hm with rfl
            exact absurd rfl hkn

theorem extract_matching_step_eq (handles : List String)
    (mapping : List (String × String)) (out : List MRow) (row : MRow) :
    extract_matching_step handles mapping out row = out ∨
    ∃ hs, handles.contains (normalize_handle (some hs)) = true ∧
      extract_matching_step handles mapping out row =
        out ++ [⟨PyVal.str ((dictGet mapping (normalize_handle (some hs))).getD hs),
                 row.rest⟩] := by
  rcases row with ⟨handle, rest⟩
  cases handle with
  | none => left; rfl
  | bool b =>
    by_cases h : handles.contains
        (normalize_handle (some (pyStrip (pyStr (PyVal.bool b))))) = true
    · right
      refine ⟨pyStrip (pyStr (PyVal.bool b)), h, ?_⟩
      simp only [extract_matching_step]
      rw [if_pos h]
    · left
      simp only [extract_matching_step]
      rw [if_neg h]
  | int n =>
    by_cases h : handles.contains
        (normalize_handle (some (pyStrip (pyStr (PyVal.int n))))) = true
    · right
      refine ⟨pyStrip (pyStr (PyVal.int n)), h, ?_⟩
      simp only [extract_matching_step]
      rw [if_pos h]
    · left
      simp only [extract_matching_step]
      rw [if_neg h]
  | str t =>
    by_cases h : handles.contains
        (normalize_handle (some (pyStrip (pyStr (PyVal.str t))))) = true
    · right
      refine ⟨pyStrip (pyStr (PyVal.str t)), h, ?_⟩
      simp only [extract_matching_step]
      rw [if_pos h]
    · left
      simp only [extract_matching_step]
      rw [if_neg h]

theorem extract_matching_mem (handles : List String)
    (mapping : List (String × String)) :
    ∀ (rows : List MRow) (out0 : List MRow) (r : MRow),
      r ∈ rows.foldl (extract_matching_step handles mapping) out0 →
      r ∈ out0 ∨
      ∃ hs : String, handles.contains (normalize_handle (some hs)) = true ∧
        r.handle =
          PyVal.str ((dictGet mapping (normalize_handle (some hs))).getD hs) := by
  intro rows
  induction rows with
  | nil => intro out0 r hr; exact Or.inl hr
  | cons row rest ih =>
    intro out0 r hr
    rw [List.foldl_cons] at hr
    rcases ih _ r hr with hmem | hP
    · rcases extract_matching_step_eq handles mapping out0 row with heq |
        ⟨hs, hcont, heq⟩
      · rw [heq] at hmem
        exact Or.inl hmem
      · rw [heq] at hmem
        rcases List.mem_append.mp hmem with hm | hm
        · exact Or.inl hm
        · rcases List.mem_singleton.mp hm with rfl
          exact Or.inr ⟨hs, hcont, rfl⟩
    · exact Or.inr hP

/-- Claim C4 counterexample: with reference handles `["Café", "Cafe"]`, both
normalizing to `"cafe"`, the mapping retains the original text of the LAST
occurrence (`"Cafe"`), not the first (`"Café"`) as claimed. -/
theorem claim_C4_counterexample :
    ¬(dictGet (extract_handles_from_reference
        [PyVal.str "Café", PyVal.str "Cafe"]).2 "cafe" = some "Café") := by
  decide

/-- Claim C4 (amended): when several reference handles normalize to the same
key, the mapping keeps the original text of the LAST occurrence in file
order (dict assignment overwrites), and that retained original text is
exactly what is written into the handle cell of every matching master
row. -/
theorem claim_C4 :
    (∀ (cells : List PyVal) (key : String),
       dictGet (extract_handles_from_reference cells).2 key =
         lastOriginalFor cells key) ∧
    (∀ (refCells : List PyVal) (masterRows : List MRow) (r : MRow),
       r ∈ extract_matching_rows masterRows
             (extract_handles_from_reference refCells).1
             (extract_handles_from_reference refCells).2 →
       ∃ orig key, lastOriginalFor refCells key = some orig ∧
         r.handle = PyVal.str orig) := by
  have part1 : ∀ (cells : List PyVal) (key : String),
      dictGet (extract_handles_from_reference cells).2 key =
        lastOriginalFor cells key := by
    intro cells key
    show dictGet (cells.foldl extract_handles_step ([], [])).2 key = _
    rw [extract_mapping_spec]
    cases lastOriginalFor cells key <;> rfl
  refine ⟨part1, ?_⟩
  intro refCells masterRows r hr
  rcases extract_matching_mem _ _ masterRows [] r hr with hmem |
    ⟨hs, hcont, hhandle⟩
  · cases hmem
  · have hmem' : normalize_handle (some hs) ∈
        (extract_handles_from_reference refCells).1 :=
      List.mem_of_elem_eq_true hcont
    have hsome : (dictGet (extract_handles_from_reference refCells).2
        (normalize_handle (some hs))).isSome = true := by
      show (dictGet (refCells.foldl extract_handles_step ([], [])).2
        (normalize_handle (some hs))).isSome = true
      exact extract_set_mapping refCells ([], []) (by intro k hk; cases hk)
        (normalize_handle (some hs)) hmem'
    rw [part1] at hsome
    obtain ⟨orig, horig⟩ := Option.isSome_iff_exists.mp hsome
    refine ⟨orig, normalize_handle (some hs), horig, ?_⟩
    rw [hhandle, part1, horig]
    rfl

/-- Claim C4 witness: one reference handle `"Café"`; the master row
`"Cafe"` matches via the normalized key and is rewritten with the
reference's original text. -/
theorem claim_C4_witness :
    ∃ orig key,
      lastOriginalFor [PyVal.str "Café"] key = some orig ∧
      (⟨PyVal.str "Café", ([] : List PyVal)⟩ : MRow).handle = PyVal.str orig :=
  claim_C4.2 [PyVal.str "Café"] [⟨PyVal.str "Cafe", []⟩]
    ⟨PyVal.str "Café", []⟩ (by decide)

end Matrixify

